import Mathlib

/-!
# Verification of the chunked concurrent upload pipeline (`src/lib/storage.ts`)

This file shallowly embeds the upload pipeline of the flow-extension
repository: the blob codec (`dataUrlToBlob`), the per-part transmitter
(`uploadPart`), the per-file uploader (`uploadScreenshot`) and the batch
orchestrator (`uploadScreenshots`).

Network interactions are modelled by explicit environments (oracles) giving
the response of each network call, and JavaScript's single-threaded
cooperative concurrency is modelled by a small-step semantics over the
shared batch state (work queue, results array, per-file byte map), driven by
an arbitrary scheduler choosing which worker advances at each suspension
point.  All machine arithmetic involved is integer-valued and exact in the
source (sizes, part numbers, byte counts), except for the progress `percent`
which is computed with JS floats; it is modelled exactly over the rationals
as `round (100 * uploaded / total)` (see `percentOf`).
-/

namespace Flow

/-! ## Blob codec: `dataUrlToBlob` (storage.ts lines 35-45)

`dataUrlToBlob` splits the data URL on `","`, extracts a content type from
the first piece with the regex `/:(.*?);/` (defaulting to `"image/png"` when
the regex does not match or captures the empty string), and base64-decodes
the second piece with `atob`.  `atob` implements the WHATWG
"forgiving-base64" decoder; it is the only failure point of the function.
When the string contains no comma, `parts[1]` is `undefined` and `atob`
coerces it to the string `"undefined"` (which is rejected: its length is
9 ≡ 1 mod 4). -/

/-- Characters the JS regex `.` does not match (newline semantics). -/
def isJsNewline (c : Char) : Bool :=
  c = '\n' ∨ c = '\r' ∨ c = Char.ofNat 0x2028 ∨ c = Char.ofNat 0x2029

/-- Model of matching the regex `/:(.*?);/` against a list of characters:
the first `:` from which a `;` is reachable through non-newline characters
matches, and the (lazy) capture group is everything strictly between that
`:` and the first following `;`. -/
def findContentType : List Char → Option (List Char)
  | [] => none
  | c :: rest =>
    if c = ':' then
      let g := rest.takeWhile (fun ch => ch ≠ ';')
      if (rest.dropWhile (fun ch => ch ≠ ';')) ≠ [] ∧ g.all (fun ch => ¬ isJsNewline ch) then
        some g
      else findContentType rest
    else findContentType rest

/-- `parts[0].match(/:(.*?);/)?.[1] || "image/png"`: the captured group, or
the default when there is no match or the group is the empty string (empty
strings are falsy in JS). -/
def contentTypeOf (prefixPart : String) : String :=
  match findContentType prefixPart.data with
  | none => "image/png"
  | some g => if g = [] then "image/png" else String.mk g

/-- ASCII whitespace removed by the forgiving-base64 decoder. -/
def isB64Whitespace (c : Char) : Bool :=
  c = ' ' ∨ c = '\t' ∨ c = '\n' ∨ c = '\x0c' ∨ c = '\r'

/-- Base64 alphabet (without padding). -/
def isB64Char (c : Char) : Bool :=
  ('A' ≤ c ∧ c ≤ 'Z') ∨ ('a' ≤ c ∧ c ≤ 'z') ∨ ('0' ≤ c ∧ c ≤ '9') ∨ c = '+' ∨ c = '/'

/-- Numeric value of a base64 character. -/
def b64Val (c : Char) : Nat :=
  if 'A' ≤ c ∧ c ≤ 'Z' then c.toNat - 'A'.toNat
  else if 'a' ≤ c ∧ c ≤ 'z' then c.toNat - 'a'.toNat + 26
  else if '0' ≤ c ∧ c ≤ '9' then c.toNat - '0'.toNat + 52
  else if c = '+' then 62
  else 63

/-- Strip one or two trailing `=` characters, but only when the length is a
multiple of four (as the forgiving-base64 algorithm prescribes). -/
def stripB64Padding (cs : List Char) : List Char :=
  if cs.length % 4 = 0 then
    let cs1 := if cs.getLast? = some '=' then cs.dropLast else cs
    if cs1.getLast? = some '=' then cs1.dropLast else cs1
  else cs

/-- Turn a list of sextet values into output bytes (4 sextets give 3 bytes;
a final pair gives 1 byte, a final triple gives 2 bytes). -/
def sextetsToBytes : List Nat → List Nat
  | a :: b :: c :: d :: rest =>
    (a * 4 + b / 16) :: ((b % 16) * 16 + c / 4) :: ((c % 4) * 64 + d) :: sextetsToBytes rest
  | [a, b] => [a * 4 + b / 16]
  | [a, b, c] => [a * 4 + b / 16, (b % 16) * 16 + c / 4]
  | _ => []

/-- WHATWG forgiving-base64 decode, the semantics of `atob`: remove ASCII
whitespace, strip permissible padding, reject a length ≡ 1 (mod 4) and any
character outside the alphabet, then decode.  `none` models the
`InvalidCharacterError` thrown by `atob`. -/
def atobDecode (s : String) : Option (List Nat) :=
  let cs := s.data.filter (fun c => ¬ isB64Whitespace c)
  let cs := stripB64Padding cs
  if cs.length % 4 = 1 then none
  else if cs.all isB64Char then some (sextetsToBytes (cs.map b64Val))
  else none

/-- A decoded blob: the byte values and the MIME type. -/
structure Blob where
  bytes : List Nat
  type : String
  deriving Repr, DecidableEq

/-- `blob.size`. -/
def Blob.size (b : Blob) : Nat := b.bytes.length

/-- Split a character list at every comma (the semantics of JS
`String.prototype.split(",")`), accumulating the current piece reversed. -/
def splitCommaAux : List Char → List Char → List String
  | [], acc => [String.mk acc.reverse]
  | c :: rest, acc =>
    if c = ',' then String.mk acc.reverse :: splitCommaAux rest []
    else splitCommaAux rest (c :: acc)

/-- `dataUrl.split(",")`. -/
def jsSplitComma (s : String) : List String := splitCommaAux s.data []

/-- The base64 body the code passes to `atob`: `parts[1]`, which JS coerces
to the string `"undefined"` when the input contains no comma. -/
def b64Body (dataUrl : String) : String :=
  ((jsSplitComma dataUrl).getD 1 "undefined")

/-- `dataUrlToBlob` (storage.ts lines 35-45).  `none` models the function
throwing (which happens exactly when `atob` rejects the body). -/
def dataUrlToBlob (dataUrl : String) : Option Blob :=
  let parts := jsSplitComma dataUrl
  let contentType := contentTypeOf (parts.getD 0 "")
  (atobDecode (b64Body dataUrl)).map (fun bs => ⟨bs, contentType⟩)

/-- Whether the metadata prefix of the data URL parses, i.e. the regex
`/:(.*?);/` matches `parts[0]`. -/
def prefixParses (dataUrl : String) : Bool :=
  (findContentType ((jsSplitComma dataUrl).getD 0 "").data).isSome

end Flow

namespace Flow

/-! ## Part transmitter: `uploadPart` (storage.ts lines 59-126)

One attempt is the two-step protocol: GET a fresh presigned URL for
`(key, uploadId, partNumber)`, then PUT the bytes to it and read the `ETag`
header.  The environment `Nat → AttemptOutcome` gives, per attempt index,
which step failed, or the raw `ETag` header value (`none` when the header is
absent) on a successful PUT.  That a *fresh* signed URL is requested on
every attempt is reflected by the environment being indexed by the attempt
number. -/

/-- Outcome of one attempt of `uploadPart`, as decided by the network. -/
inductive AttemptOutcome
  | signFail
  | putFail
  | putOk (rawEtag : Option String)
  deriving Repr, DecidableEq

/-- `etag.replace(/"/g, "")`. -/
def stripQuotes (s : String) : String := String.mk (s.data.filter (fun c => c ≠ '"'))

/-- `{ PartNumber, ETag }`, the element type of `completedParts`. -/
structure PartTag where
  PartNumber : Nat
  ETag : String
  deriving Repr, DecidableEq

/-- Result of one attempt of the body of `uploadPart`'s retry loop:
`none` models the attempt throwing (failed sign, failed PUT, or a missing /
empty `ETag` after quote stripping — all of which `throw` in the source). -/
def attemptResult (o : AttemptOutcome) (partNumber : Nat) : Option PartTag :=
  match o with
  | .signFail => none
  | .putFail => none
  | .putOk rawEtag =>
    match rawEtag with
    | none => none
    | some t =>
      let e := stripQuotes t
      if e = "" then none else some ⟨partNumber, e⟩

/-- `Math.min(1000 * Math.pow(2, attempt), 10000)` (storage.ts line 119). -/
def backoffDelay (attempt : Nat) : Nat := min (1000 * 2 ^ attempt) 10000

/-- Observable outcome of a full `uploadPart` call: the returned part tag
(`none` = the function threw after exhausting retries), the number of
attempts actually made, and the list of backoff delays slept, in order. -/
structure PartRun where
  result : Option PartTag
  attemptsUsed : Nat
  delays : List Nat
  deriving Repr, DecidableEq

/-- The retry loop of `uploadPart`, starting at attempt index `attempt`
with `fuel` attempts remaining (`fuel = maxRetries - attempt`).  A delay of
`backoffDelay attempt` is slept after a failed attempt unless it was the
last one (`attempt < maxRetries - 1` in the source, i.e. remaining fuel
nonzero). -/
def uploadPartGo (env : Nat → AttemptOutcome) (partNumber : Nat) :
    Nat → Nat → PartRun
  | _, 0 => ⟨none, 0, []⟩
  | attempt, fuel + 1 =>
    match attemptResult (env attempt) partNumber with
    | some r => ⟨some r, 1, []⟩
    | none =>
      let rest := uploadPartGo env partNumber (attempt + 1) fuel
      ⟨rest.result, rest.attemptsUsed + 1,
        (if fuel = 0 then [] else [backoffDelay attempt]) ++ rest.delays⟩

/-- `uploadPart` (storage.ts lines 59-126) with its default `maxRetries = 3`. -/
def uploadPart (env : Nat → AttemptOutcome) (partNumber : Nat)
    (maxRetries : Nat := 3) : PartRun :=
  uploadPartGo env partNumber 0 maxRetries

/-! ## File uploader: `uploadScreenshot` (storage.ts lines 131-205)

`uploadScreenshot` decodes the data URL, opens a multipart session via
`POST /api/upload/create`, uploads parts `1..totalParts` sequentially
(reporting `min(partNumber * partSize, size)` bytes after each), submits the
collected part tags — sorted ascending by `PartNumber` — to
`PATCH /api/upload/complete`, and on a non-success complete response issues a
single best-effort `DELETE /api/upload/abort` with the session's
`{key, uploadId}` (inside `try/catch`, its own failure is only logged) before
throwing the finalize error. -/

/-- The session object returned by `POST /api/upload/create`. -/
structure MultipartSession where
  uploadId : String
  key : String
  partSize : Nat
  totalParts : Nat
  deriving Repr, DecidableEq

/-- The errors `uploadScreenshot` can throw. -/
inductive UploadError
  | decodeFailed
  | createFailed (msg : String)
  | partFailed (partNumber : Nat)
  | completeFailed (msg : String)
  deriving Repr, DecidableEq

/-- Network environment for the upload of one file: the create response, an
attempt oracle per `(partNumber, attempt)` pair, the complete response, and
whether the best-effort abort request itself throws. -/
structure FileEnv where
  create : Except String MultipartSession
  attempt : Nat → Nat → AttemptOutcome
  completeOk : Bool
  completeErr : String
  abortThrows : Bool

/-- The part loop of `uploadScreenshot` (storage.ts lines 160-175), from
part number `pn` with `remaining` parts still to do.  Returns the collected
`completedParts` prefix, the `(uploaded, total)` progress reports in order,
and whether the loop ran to completion (`false` = some `uploadPart` threw,
which aborts the loop and propagates). -/
def runParts (env : FileEnv) (size partSize : Nat) :
    Nat → Nat → List PartTag × List (Nat × Nat) × Bool
  | _, 0 => ([], [], true)
  | pn, remaining + 1 =>
    match (uploadPart (env.attempt pn) pn).result with
    | none => ([], [], false)
    | some tag =>
      let rest := runParts env size partSize (pn + 1) remaining
      (tag :: rest.1, (min (pn * partSize) size, size) :: rest.2.1, rest.2.2)

/-- Insert a part tag into a list sorted ascending by `PartNumber`. -/
def insertPart (t : PartTag) : List PartTag → List PartTag
  | [] => [t]
  | h :: rest =>
    if t.PartNumber ≤ h.PartNumber then t :: h :: rest else h :: insertPart t rest

/-- `completedParts.sort((a, b) => a.PartNumber - b.PartNumber)`: a sort
ascending by `PartNumber` (insertion sort; on the lists this program
produces, part numbers are distinct, so any comparison sort agrees). -/
def sortParts : List PartTag → List PartTag
  | [] => []
  | h :: rest => insertPart h (sortParts rest)

instance {ε α : Type} [DecidableEq ε] [DecidableEq α] : DecidableEq (Except ε α) :=
  fun x y =>
    match x, y with
    | .error a, .error b =>
      if h : a = b then isTrue (by rw [h]) else isFalse (fun hc => by cases hc; exact h rfl)
    | .ok a, .ok b =>
      if h : a = b then isTrue (by rw [h]) else isFalse (fun hc => by cases hc; exact h rfl)
    | .error _, .ok _ => isFalse (fun hc => by cases hc)
    | .ok _, .error _ => isFalse (fun hc => by cases hc)

/-- Observable outcome of one `uploadScreenshot` call: the returned storage
key or thrown error, the sequence of per-file progress callbacks, the parts
array submitted to `/api/upload/complete` (`none` when finalize was never
reached), and the `{key, uploadId}` payloads of abort calls issued. -/
structure FileRun where
  result : Except UploadError String
  progress : List (Nat × Nat)
  finalizeParts : Option (List PartTag)
  aborts : List (String × String)
  deriving Repr, DecidableEq

/-- `uploadScreenshot` (storage.ts lines 131-205). -/
def uploadScreenshot (dataUrl : String) (env : FileEnv) : FileRun :=
  match dataUrlToBlob dataUrl with
  | none => ⟨.error .decodeFailed, [], none, []⟩
  | some blob =>
    match env.create with
    | .error msg => ⟨.error (.createFailed msg), [], none, []⟩
    | .ok sess =>
      let r := runParts env blob.size sess.partSize 1 sess.totalParts
      if r.2.2 then
        let sorted := sortParts r.1
        if env.completeOk then
          ⟨.ok sess.key, r.2.1, some sorted, []⟩
        else
          match env.abortThrows with
          | true => ⟨.error (.completeFailed env.completeErr), r.2.1, some sorted,
              [(sess.key, sess.uploadId)]⟩
          | false => ⟨.error (.completeFailed env.completeErr), r.2.1, some sorted,
              [(sess.key, sess.uploadId)]⟩
      else
        ⟨.error (.partFailed (r.1.length + 1)), r.2.1, none, []⟩

/-- The storage key of the session the create call returned. -/
def createdKey (env : FileEnv) : String :=
  match env.create with
  | .ok sess => sess.key
  | .error _ => ""

/-- "Every network operation of this file eventually succeeds": the create
call succeeds, every part succeeds within the retry budget, and the
complete call succeeds. -/
def envSucceeds (env : FileEnv) : Prop :=
  (∃ sess, env.create = Except.ok sess) ∧ env.completeOk = true ∧
    ∀ pn, ((uploadPart (env.attempt pn) pn).result).isSome = true

/-- The session invariant of the chunking plan the coordinator returns
(spec §3): a positive part size and `totalParts = ceil(size / partSize)`. -/
def sessionValid (sess : MultipartSession) (size : Nat) : Prop :=
  0 < sess.partSize ∧ sess.totalParts = (size + sess.partSize - 1) / sess.partSize

/-- The decoded byte size of a data URL (0 when decoding fails). -/
def decodedSize (u : String) : Nat := (dataUrlToBlob u).elim 0 Blob.size

/-! ## Batch orchestrator: `uploadScreenshots` (storage.ts lines 211-297)

The JS runtime is single-threaded: workers interleave only at `await`
points.  The shared-state mutations of a worker are grouped into atomic
turns — claiming the next queue index (`queue.shift()`), completing one part
(update `bytesPerScreenshot`, aggregate, invoke `onProgress`), finishing a
file (fill `results[index]`, set this file's bytes to its full size), or
crashing (the per-file error propagates out of the worker).  A schedule
(`List Nat` of worker indices) chooses which worker's next turn runs; all
theorems below quantify over every schedule, which covers every I/O
completion order the runtime can produce. -/

/-- The behaviour of one input file as the batch orchestrator observes it:
the sequence of uploaded-byte values its progress callback reports, its
decoded size, and the storage key it resolves with (`none` = it throws). -/
structure FileSpec where
  prog : List Nat
  size : Nat
  key : Option String
  deriving Repr, DecidableEq, Inhabited

/-- Extract the orchestrator-visible behaviour of one file from the file
uploader model. -/
def fileSpecOf (dataUrl : String) (env : FileEnv) : FileSpec :=
  let r := uploadScreenshot dataUrl env
  { prog := r.progress.map Prod.fst
    size := decodedSize dataUrl
    key := match r.result with
      | .ok k => some k
      | .error _ => none }

/-- Status of one worker of the pool. -/
inductive WStatus
  | idle
  | working (idx : Nat) (done : Nat)
  | crashed (idx : Nat)
  | retired
  deriving Repr, DecidableEq

/-- The index a worker currently holds (claimed but not completed). -/
def WStatus.activeIdx : WStatus → Option Nat
  | .working i _ => some i
  | .crashed i => some i
  | _ => none

/-- Whether a worker is mid-file (its file is in flight). -/
def WStatus.isWorking : WStatus → Bool
  | .working _ _ => true
  | _ => false

/-- Whether a worker has thrown. -/
def WStatus.isCrashed : WStatus → Bool
  | .crashed _ => true
  | _ => false

/-- Whether a worker's promise has settled (resolved or rejected). -/
def WStatus.isStopped : WStatus → Bool
  | .retired => true
  | .crashed _ => true
  | _ => false

/-- The `UploadProgress` record of storage.ts lines 12-18. -/
structure UploadProgress where
  uploadedBytes : Nat
  totalBytes : Nat
  percent : Nat
  currentFile : Nat
  totalFiles : Nat
  deriving Repr, DecidableEq

/-- `Math.round((u / t) * 100)` modelled exactly over the rationals:
`⌊100u/t + 1/2⌋ = (200u + t) / (2t)` in natural division (for `t > 0`;
the `t = 0` NaN case is outside every theorem below). -/
def percentOf (u t : Nat) : Nat := (200 * u + t) / (2 * t)

/-- The shared state of `uploadScreenshots`: the index queue, the
pre-allocated `results` array, the `bytesPerScreenshot` map (a per-index
optional entry — JS `Map` iteration order does not matter because only the
sum and the entry count are consumed), the worker pool, and the
`BatchProgress` values emitted so far. -/
structure BatchState where
  queue : List Nat
  results : List (Option (String × String))
  bytes : List (Option Nat)
  workers : List WStatus
  emitted : List UploadProgress
  deriving Repr, DecidableEq

/-- Value of an entry of `bytesPerScreenshot` (absent = contributes 0). -/
def optVal (o : Option Nat) : Nat := o.getD 0

/-- `Array.from(bytesPerScreenshot.values()).reduce((sum, b) => sum + b, 0)`. -/
def mapSum (l : List (Option Nat)) : Nat := (l.map optVal).sum

/-- `bytesPerScreenshot.size`. -/
def mapCard (l : List (Option Nat)) : Nat := l.countP Option.isSome

/-- `` `page_${index + 1}.png` ``. -/
def pageFilename (i : Nat) : String := "page_" ++ toString (i + 1) ++ ".png"

/-- `totalBytes`: the sum of the pre-computed per-screenshot sizes. -/
def totalBytesOf (specs : List FileSpec) : Nat := (specs.map FileSpec.size).sum

/-- One atomic turn of worker `w` (no-op when `w` is out of range or the
worker has settled).  An idle worker retires when the queue is empty, else
claims the front index.  A working worker either completes its next part —
updating `bytesPerScreenshot` and emitting one aggregated progress record
(storage.ts lines 246-263) — or, when its parts are done, finishes:
successfully (fill `results[i]`, set bytes to the full size, lines 267-270)
or by crashing (line 277 re-throws). -/
def stepWorker (specs : List FileSpec) (s : BatchState) (w : Nat) : BatchState :=
  match s.workers.getD w .retired with
  | .retired => s
  | .crashed _ => s
  | .idle =>
    match s.queue with
    | [] => { s with workers := s.workers.set w .retired }
    | i :: rest => { s with queue := rest, workers := s.workers.set w (.working i 0) }
  | .working i d =>
    let spec := specs.getD i default
    if d < spec.prog.length then
      let bytes' := s.bytes.set i (some (spec.prog.getD d 0))
      let u := mapSum bytes'
      let e : UploadProgress :=
        ⟨u, totalBytesOf specs, percentOf u (totalBytesOf specs), mapCard bytes',
          specs.length⟩
      { s with bytes := bytes', emitted := s.emitted ++ [e],
               workers := s.workers.set w (.working i (d + 1)) }
    else
      match spec.key with
      | some k =>
        { s with results := s.results.set i (some (k, pageFilename i)),
                 bytes := s.bytes.set i (some spec.size),
                 workers := s.workers.set w .idle }
      | none => { s with workers := s.workers.set w (.crashed i) }

/-- `Math.min(concurrency, screenshots.length)` (storage.ts line 283). -/
def numWorkers (concurrency n : Nat) : Nat := min concurrency n

/-- The state just after the synchronous prologue: full index queue, `null`
results, empty byte map, `numWorkers` idle workers, nothing emitted. -/
def initBatch (specs : List FileSpec) (concurrency : Nat) : BatchState :=
  { queue := List.range specs.length
    results := List.replicate specs.length none
    bytes := List.replicate specs.length none
    workers := List.replicate (numWorkers concurrency specs.length) .idle
    emitted := [] }

/-- Run the worker pool under a schedule. -/
def runBatch (specs : List FileSpec) (concurrency : Nat) (sched : List Nat) :
    BatchState :=
  sched.foldl (stepWorker specs) (initBatch specs concurrency)

/-- Whether every worker promise has settled (`Promise.all` has resolved or
rejected and no turn can run any more). -/
def terminalB (s : BatchState) : Bool := s.workers.all WStatus.isStopped

/-- The ways the batch call can reject. -/
inductive BatchError
  | decodeFailed
  | fileFailed
  | missingResults
  deriving Repr, DecidableEq

/-- The settled value of the batch promise in a given final state:
`Promise.all` rejects when some worker rejected; otherwise line 292's check
rejects when some slot of `results` is still `null`; otherwise the filled
array is returned. -/
def batchOutcome (s : BatchState) : Except BatchError (List (String × String)) :=
  if s.workers.any WStatus.isCrashed then .error .fileFailed
  else if s.results.any Option.isNone then .error .missingResults
  else .ok (s.results.map (fun r => r.getD ("", "")))

/-- The per-file behaviours of a batch input (index `i` is uploaded as
`page_{i+1}.png` against environment `envs i`). -/
def specsOf (screenshots : List String) (envs : Nat → FileEnv) : List FileSpec :=
  (List.range screenshots.length).map
    (fun i => fileSpecOf (screenshots.getD i "") (envs i))

/-- `uploadScreenshots` (storage.ts lines 211-297) under a network
environment and a schedule: the synchronous prologue decodes every
screenshot up front (line 223 — a decode error rejects the batch before any
worker starts), then the worker pool runs to the given state; the first
component is the settled batch promise, the second the progress records
passed to `onProgress`, in order. -/
def uploadScreenshots (screenshots : List String) (envs : Nat → FileEnv)
    (concurrency : Nat) (sched : List Nat) :
    Except BatchError (List (String × String)) × List UploadProgress :=
  if (screenshots.map dataUrlToBlob).any Option.isNone then (.error .decodeFailed, [])
  else
    let s := runBatch (specsOf screenshots envs) concurrency sched
    (batchOutcome s, s.emitted)

/-! ## Invariant bundles over the batch state -/

/-- Every reported per-file byte value is bounded by that file's size
(true of every `fileSpecOf`, since reports are `min(p * partSize, size)`). -/
def SpecsBounded (specs : List FileSpec) : Prop :=
  ∀ sp ∈ specs, ∀ v ∈ sp.prog, v ≤ sp.size

/-- Every file's reported byte values are non-decreasing. -/
def SpecsMono (specs : List FileSpec) : Prop :=
  ∀ sp ∈ specs, List.Chain' (· ≤ ·) sp.prog

/-- Every file reports at least once and its last report equals its size
(true of fully-successful files with a valid chunking plan and positive
size). -/
def SpecsComplete (specs : List FileSpec) : Prop :=
  ∀ sp ∈ specs, sp.prog ≠ [] ∧ sp.prog.getLast? = some sp.size

/-- The inductive invariant of the worker-pool semantics.  All fields are
phrased with `getD` so they are insensitive to out-of-range indices. -/
structure Inv (specs : List FileSpec) (k : Nat) (s : BatchState) : Prop where
  len_results : s.results.length = specs.length
  len_bytes : s.bytes.length = specs.length
  len_workers : s.workers.length = numWorkers k specs.length
  queue_suffix : ∃ t, s.queue = (List.range specs.length).drop t
  active_uniq : ∀ w w', w ≠ w' → ∀ i,
    (s.workers.getD w .retired).activeIdx = some i →
    (s.workers.getD w' .retired).activeIdx = some i → False
  active_lt : ∀ w i, (s.workers.getD w .retired).activeIdx = some i →
    i < specs.length
  active_notin_queue : ∀ w i, (s.workers.getD w .retired).activeIdx = some i →
    i ∉ s.queue
  active_unfilled : ∀ w i, (s.workers.getD w .retired).activeIdx = some i →
    s.results.getD i none = none
  queue_unfilled : ∀ i ∈ s.queue, s.results.getD i none = none
  queue_nobytes : ∀ i ∈ s.queue, s.bytes.getD i none = none
  coverage : ∀ i, i < specs.length →
    i ∈ s.queue ∨ (∃ w, (s.workers.getD w .retired).activeIdx = some i) ∨
      (s.results.getD i none).isSome = true
  results_spec : ∀ i v, s.results.getD i none = some v →
    (specs.getD i default).key = some v.1 ∧ v.2 = pageFilename i ∧
      s.bytes.getD i none = some (specs.getD i default).size
  worker_link : ∀ w i d, s.workers.getD w .retired = WStatus.working i d →
    d ≤ (specs.getD i default).prog.length ∧
      s.bytes.getD i none = (match d with
        | 0 => none
        | Nat.succ e => some ((specs.getD i default).prog.getD e 0))
  crashed_spec : ∀ w i, s.workers.getD w .retired = WStatus.crashed i →
    (specs.getD i default).key = none
  bytes_shape : ∀ i, i < specs.length →
    s.bytes.getD i none = none ∨
      (∃ d, d < (specs.getD i default).prog.length ∧
        s.bytes.getD i none = some ((specs.getD i default).prog.getD d 0)) ∨
      s.bytes.getD i none = some (specs.getD i default).size
  retired_empty : ∀ w, w < s.workers.length →
    s.workers.getD w .retired = WStatus.retired → s.queue = []
  emit_shape : ∀ e ∈ s.emitted, e.totalBytes = totalBytesOf specs ∧
    e.totalFiles = specs.length ∧
    e.percent = percentOf e.uploadedBytes (totalBytesOf specs)

/-- The monotonicity invariant backing the progress claims: the emitted
uploaded-byte values form a non-decreasing chain whose last element is at
most the current map total. -/
def MonoInv (s : BatchState) : Prop :=
  List.Chain' (· ≤ ·) (s.emitted.map UploadProgress.uploadedBytes) ∧
    ∀ e, s.emitted.getLast? = some e → e.uploadedBytes ≤ mapSum s.bytes

/-- The completion invariant backing the final-progress claim: the last
emitted record reflects the current map total and entry count exactly, and
a nonempty byte map means something was emitted. -/
def CompleteInv (s : BatchState) : Prop :=
  (∀ e, s.emitted.getLast? = some e →
    e.uploadedBytes = mapSum s.bytes ∧ e.currentFile = mapCard s.bytes) ∧
  (0 < mapCard s.bytes → s.emitted ≠ [])

/-! ## Concrete instances used by witnesses and counterexamples. -/

/-- A data URL whose metadata prefix the regex `/:(.*?);/` does not match
(no semicolon) but whose base64 body is valid. -/
def badPrefixUrl : String := "x,AAAA"

/-- A 3-byte PNG data URL (`"AAAA"` decodes to three zero bytes). -/
def smallUrl : String := "data:image/png;base64,AAAA"

/-- A 0-byte data URL (empty base64 body decodes to no bytes). -/
def zeroUrl : String := "data:image/png;base64,"

/-- An environment in which every call succeeds at once (one 3-byte part). -/
def goodEnv : FileEnv :=
  { create := .ok ⟨"uid-a", "key-a", 3, 1⟩
    attempt := fun _ _ => .putOk (some "\"etag-a\"")
    completeOk := true
    completeErr := ""
    abortThrows := false }

/-- A fully-successful environment for a 0-byte file: a valid session plan
has `totalParts = ceil(0 / 5) = 0`. -/
def zeroEnv : FileEnv :=
  { create := .ok ⟨"uid-b", "key-b", 5, 0⟩
    attempt := fun _ _ => .putOk (some "\"etag-b\"")
    completeOk := true
    completeErr := ""
    abortThrows := false }

/-- An environment whose PUTs always fail (every part exhausts its budget). -/
def badEnv : FileEnv :=
  { create := .ok ⟨"uid-c", "key-c", 3, 1⟩
    attempt := fun _ _ => .putFail
    completeOk := true
    completeErr := ""
    abortThrows := false }

/-- An environment whose finalize fails (parts succeed, complete rejects). -/
def finFailEnv : FileEnv :=
  { create := .ok ⟨"uid-d", "key-d", 3, 1⟩
    attempt := fun _ _ => .putOk (some "\"etag-d\"")
    completeOk := false
    completeErr := "assembly failed"
    abortThrows := true }

/-- Attempt oracle failing twice, then succeeding on the third attempt. -/
def thirdTryEnv : Nat → AttemptOutcome :=
  fun a => if a < 2 then .putFail else .putOk (some "\"etag-e\"")

/-- The two-file batch of the `C4` counterexample: a 3-byte file followed by
a 0-byte file, both fully successful with valid session plans. -/
def cxUrls : List String := [smallUrl, zeroUrl]

/-- Environments of the `C4` counterexample. -/
def cxEnvs : Nat → FileEnv := fun i => if i = 0 then goodEnv else zeroEnv

/-- A sequential single-worker schedule completing the batch: claim file 0,
upload its one part, finish it, claim file 1, finish it, retire. -/
def cxSched : List Nat := [0, 0, 0, 0, 0, 0]

/-- helper: `dataUrlToBlob` fails exactly when `atob` rejects the body. -/
theorem dataUrlToBlob_eq_none_iff (s : String) :
    dataUrlToBlob s = none ↔ atobDecode (b64Body s) = none := by
  unfold dataUrlToBlob
  cases h : atobDecode (b64Body s) <;> simp [b64Body, h]

theorem uploadPartGo_attempts_le (env : Nat → AttemptOutcome) (pn : Nat) :
    ∀ fuel a, (uploadPartGo env pn a fuel).attemptsUsed ≤ fuel := by
  intro fuel
  induction fuel with
  | zero => intro a; simp [uploadPartGo]
  | succ n ih =>
    intro a
    unfold uploadPartGo
    cases h : attemptResult (env a) pn with
    | some r => simp
    | none => simpa using ih (a + 1)

theorem uploadPartGo_attempts_pos (env : Nat → AttemptOutcome) (pn : Nat)
    (fuel a : Nat) (h : 0 < fuel) : 0 < (uploadPartGo env pn a fuel).attemptsUsed := by
  cases fuel with
  | zero => omega
  | succ n =>
    unfold uploadPartGo
    cases h : attemptResult (env a) pn with
    | some r => simp
    | none => simp

theorem uploadPartGo_none_iff (env : Nat → AttemptOutcome) (pn : Nat) :
    ∀ fuel a, (uploadPartGo env pn a fuel).result = none ↔
      ∀ j, j < fuel → attemptResult (env (a + j)) pn = none := by
  intro fuel
  induction fuel with
  | zero => intro a; simp [uploadPartGo]
  | succ n ih =>
    intro a
    unfold uploadPartGo
    cases h : attemptResult (env a) pn with
    | some r =>
      simp only []
      constructor
      · intro hc; exact absurd hc (by simp)
      · intro hall
        have := hall 0 (Nat.succ_pos n)
        simp [h] at this
    | none =>
      simp only []
      rw [ih (a + 1)]
      constructor
      · intro hall j hj
        cases j with
        | zero => simpa using h
        | succ j' =>
          have hx := hall j' (by omega)
          rw [show a + (j' + 1) = a + 1 + j' by omega]
          exact hx
      · intro hall j hj
        have hx := hall (j + 1) (by omega)
        rw [show a + 1 + j = a + (j + 1) by omega]
        exact hx

theorem uploadPartGo_attempts_of_none (env : Nat → AttemptOutcome) (pn : Nat) :
    ∀ fuel a, (uploadPartGo env pn a fuel).result = none →
      (uploadPartGo env pn a fuel).attemptsUsed = fuel := by
  intro fuel
  induction fuel with
  | zero => intro a _; simp [uploadPartGo]
  | succ n ih =>
    intro a hnone
    unfold uploadPartGo at hnone ⊢
    cases h : attemptResult (env a) pn with
    | some r => rw [h] at hnone; simp at hnone
    | none =>
      rw [h] at hnone
      simp only [] at hnone ⊢
      rw [ih (a + 1) hnone]

theorem uploadPartGo_delays (env : Nat → AttemptOutcome) (pn : Nat) :
    ∀ fuel a, (uploadPartGo env pn a fuel).delays =
      (List.range ((uploadPartGo env pn a fuel).attemptsUsed - 1)).map
        (fun j => backoffDelay (a + j)) := by
  intro fuel
  induction fuel with
  | zero => intro a; simp [uploadPartGo]
  | succ n ih =>
    intro a
    unfold uploadPartGo
    cases h : attemptResult (env a) pn with
    | some r => simp
    | none =>
      simp only []
      cases hn : n with
      | zero =>
        simp [uploadPartGo]
      | succ m =>
        have hpos : 0 < (uploadPartGo env pn (a + 1) n).attemptsUsed := by
          rw [hn]; exact uploadPartGo_attempts_pos env pn _ _ (Nat.succ_pos m)
        obtain ⟨k, hk⟩ : ∃ k, (uploadPartGo env pn (a + 1) n).attemptsUsed = k + 1 :=
          ⟨_, (Nat.succ_pred_eq_of_pos hpos).symm⟩
        rw [← hn]
        have hne : n ≠ 0 := by omega
        simp only [hne, if_false, List.singleton_append]
        rw [ih (a + 1), hk]
        simp only [Nat.add_sub_cancel, Nat.succ_sub_one]
        rw [List.range_succ_eq_map]
        simp only [List.map_cons, List.map_map]
        refine List.cons_eq_cons.mpr ⟨by simp, ?_⟩
        apply List.map_congr_left
        intro j _
        have hx : a + 1 + j = a + (j + 1) := by omega
        simp [Function.comp, hx]

theorem uploadPartGo_early_fail (env : Nat → AttemptOutcome) (pn : Nat) :
    ∀ fuel a j, j + 1 < (uploadPartGo env pn a fuel).attemptsUsed →
      attemptResult (env (a + j)) pn = none := by
  intro fuel
  induction fuel with
  | zero => intro a j hj; simp [uploadPartGo] at hj
  | succ n ih =>
    intro a j hj
    unfold uploadPartGo at hj
    cases h : attemptResult (env a) pn with
    | some r => rw [h] at hj; simp at hj
    | none =>
      rw [h] at hj
      simp only [] at hj
      cases j with
      | zero => simpa using h
      | succ j' =>
        have hx := ih (a + 1) j' (by omega)
        rw [show a + (j' + 1) = a + 1 + j' by omega]
        exact hx

theorem uploadPartGo_first_success (env : Nat → AttemptOutcome) (pn : Nat) :
    ∀ fuel a j t, j < fuel →
      (∀ b, b < j → attemptResult (env (a + b)) pn = none) →
      attemptResult (env (a + j)) pn = some t →
      (uploadPartGo env pn a fuel).result = some t ∧
        (uploadPartGo env pn a fuel).attemptsUsed = j + 1 := by
  intro fuel
  induction fuel with
  | zero => intro a j t hj; omega
  | succ n ih =>
    intro a j t hj hprev hsucc
    unfold uploadPartGo
    cases j with
    | zero =>
      simp only [Nat.add_zero] at hsucc
      rw [hsucc]
      exact ⟨rfl, rfl⟩
    | succ j' =>
      have h0 : attemptResult (env a) pn = none := by simpa using hprev 0 (Nat.succ_pos j')
      rw [h0]
      have hrec := ih (a + 1) j' t (by omega)
        (fun b hb => by
          have hx := hprev (b + 1) (by omega)
          rw [show a + 1 + b = a + (b + 1) by omega]
          exact hx)
        (by rw [show a + 1 + j' = a + (j' + 1) by omega]; exact hsucc)
      simp only []
      exact ⟨hrec.1, by rw [hrec.2]⟩

/-! ### List and arithmetic helpers -/

theorem getD_set_self {α : Type} (l : List α) (i : Nat) (a d : α) (h : i < l.length) :
    (l.set i a).getD i d = a := by
  simp [List.getD_eq_getElem?_getD, List.getElem?_set_self, h]

theorem getD_set_ne {α : Type} (l : List α) {i j : Nat} (a d : α) (h : i ≠ j) :
    (l.set i a).getD j d = l.getD j d := by
  simp [List.getD_eq_getElem?_getD, List.getElem?_set_ne h]

theorem getD_replicate {α : Type} {n i : Nat} (a d : α) (h : i < n) :
    (List.replicate n a).getD i d = a := by
  simp [List.getD_eq_getElem?_getD, List.getElem?_replicate, h]

theorem getD_oob {α : Type} (l : List α) {i : Nat} (d : α) (h : l.length ≤ i) :
    l.getD i d = d := by
  simp [List.getD_eq_getElem?_getD, List.getElem?_eq_none h]

theorem mapSum_cons (b : Option Nat) (l : List (Option Nat)) :
    mapSum (b :: l) = optVal b + mapSum l := by
  simp [mapSum]

theorem mapCard_cons (b : Option Nat) (l : List (Option Nat)) :
    mapCard (b :: l) = (if b.isSome then 1 else 0) + mapCard l := by
  cases b <;> simp [mapCard, List.countP_cons] <;> omega

theorem mapSum_set (l : List (Option Nat)) :
    ∀ i, i < l.length → ∀ x : Option Nat,
      mapSum (l.set i x) + optVal (l.getD i none) = mapSum l + optVal x := by
  induction l with
  | nil => intro i hi; simp at hi
  | cons hd tl ih =>
    intro i hi x
    cases i with
    | zero => simp [mapSum_cons, optVal]; omega
    | succ j =>
      have hj : j < tl.length := by simpa using hi
      have := ih j hj x
      simp only [List.set_cons_succ, mapSum_cons, List.getD_cons_succ]
      omega

theorem mapCard_set (l : List (Option Nat)) :
    ∀ i, i < l.length → ∀ v : Nat,
      mapCard (l.set i (some v)) + (if (l.getD i none).isSome then 1 else 0)
        = mapCard l + 1 := by
  induction l with
  | nil => intro i hi; simp at hi
  | cons hd tl ih =>
    intro i hi v
    cases i with
    | zero => simp [mapCard_cons]; omega
    | succ j =>
      have hj : j < tl.length := by simpa using hi
      have := ih j hj v
      simp only [List.set_cons_succ, mapCard_cons, List.getD_cons_succ]
      omega

theorem mapSum_set_ge (l : List (Option Nat)) {i : Nat} (h : i < l.length)
    {x : Option Nat} (hge : optVal (l.getD i none) ≤ optVal x) :
    mapSum l ≤ mapSum (l.set i x) := by
  have := mapSum_set l i h x
  omega

theorem mapSum_le_totalBytes (specs : List FileSpec) :
    ∀ bytes : List (Option Nat), bytes.length = specs.length →
      (∀ i, i < specs.length →
        optVal (bytes.getD i none) ≤ (specs.getD i default).size) →
      mapSum bytes ≤ totalBytesOf specs := by
  induction specs with
  | nil =>
    intro bytes hlen _
    have : bytes = [] := List.length_eq_zero.mp (by simpa using hlen)
    simp [this, mapSum, totalBytesOf]
  | cons sp tl ih =>
    intro bytes hlen hb
    cases bytes with
    | nil => simp at hlen
    | cons b bt =>
      have h0 := hb 0 (by simp)
      have hrec := ih bt (by simpa using hlen)
        (fun i hi => by
          have := hb (i + 1) (by simpa using hi)
          simpa using this)
      simp only [List.getD_cons_zero] at h0
      simp only [mapSum_cons, totalBytesOf, List.map_cons, List.sum_cons]
      have : totalBytesOf tl = (tl.map FileSpec.size).sum := rfl
      omega

theorem mapSum_eq_totalBytes (specs : List FileSpec) :
    ∀ bytes : List (Option Nat), bytes.length = specs.length →
      (∀ i, i < specs.length →
        bytes.getD i none = some (specs.getD i default).size) →
      mapSum bytes = totalBytesOf specs := by
  induction specs with
  | nil =>
    intro bytes hlen _
    have : bytes = [] := List.length_eq_zero.mp (by simpa using hlen)
    simp [this, mapSum, totalBytesOf]
  | cons sp tl ih =>
    intro bytes hlen hb
    cases bytes with
    | nil => simp at hlen
    | cons b bt =>
      have h0 := hb 0 (by simp)
      have hrec := ih bt (by simpa using hlen)
        (fun i hi => by
          have := hb (i + 1) (by simpa using hi)
          simpa using this)
      simp only [List.getD_cons_zero] at h0
      simp only [mapSum_cons, totalBytesOf, List.map_cons, List.sum_cons]
      have htl : totalBytesOf tl = (tl.map FileSpec.size).sum := rfl
      simp [h0, optVal]
      omega

theorem mapCard_eq_length (bytes : List (Option Nat))
    (h : ∀ b ∈ bytes, b.isSome = true) : mapCard bytes = bytes.length :=
  List.countP_eq_length.mpr h

theorem percentOf_mono {u u' : Nat} (t : Nat) (h : u ≤ u') :
    percentOf u t ≤ percentOf u' t :=
  Nat.div_le_div_right (by omega)

theorem percentOf_self {t : Nat} (ht : 0 < t) : percentOf t t = 100 := by
  unfold percentOf
  have h1 : 200 * t + t = t + 2 * t * 100 := by ring
  rw [h1, Nat.add_mul_div_left _ _ (by omega : 0 < 2 * t),
    Nat.div_eq_of_lt (by omega)]

theorem percentOf_le_100 {u t : Nat} (ht : 0 < t) (h : u ≤ t) :
    percentOf u t ≤ 100 := by
  calc percentOf u t ≤ percentOf t t := percentOf_mono t h
    _ = 100 := percentOf_self ht

/-! ### Part transmitter result shape -/

theorem attemptResult_shape {o : AttemptOutcome} {pn : Nat} {t : PartTag}
    (h : attemptResult o pn = some t) : t.PartNumber = pn ∧ t.ETag ≠ "" := by
  unfold attemptResult at h
  cases o with
  | signFail => simp at h
  | putFail => simp at h
  | putOk raw =>
    cases raw with
    | none => simp at h
    | some sraw =>
      simp only [] at h
      by_cases he : stripQuotes sraw = ""
      · simp [he] at h
      · simp only [he, if_false, Option.some.injEq] at h
        rw [← h]
        exact ⟨rfl, he⟩

theorem uploadPartGo_result_shape (env : Nat → AttemptOutcome) (pn : Nat) :
    ∀ fuel a t, (uploadPartGo env pn a fuel).result = some t →
      t.PartNumber = pn ∧ t.ETag ≠ "" := by
  intro fuel
  induction fuel with
  | zero => intro a t h; simp [uploadPartGo] at h
  | succ n ih =>
    intro a t h
    unfold uploadPartGo at h
    cases hr : attemptResult (env a) pn with
    | some r =>
      rw [hr] at h
      simp only [Option.some.injEq] at h
      rw [← h]
      exact attemptResult_shape hr
    | none =>
      rw [hr] at h
      exact ih (a + 1) t h

/-! ### Part loop lemmas -/

theorem runParts_flag_true (env : FileEnv) (size ps : Nat)
    (h : ∀ pn, ((uploadPart (env.attempt pn) pn).result).isSome = true) :
    ∀ rem pn, (runParts env size ps pn rem).2.2 = true := by
  intro rem
  induction rem with
  | zero => intro pn; simp [runParts]
  | succ n ih =>
    intro pn
    unfold runParts
    cases hr : (uploadPart (env.attempt pn) pn).result with
    | none =>
      exfalso
      have hx := h pn
      rw [hr] at hx
      simp at hx
    | some tag => simpa using ih (pn + 1)

theorem runParts_success_parts (env : FileEnv) (size ps : Nat) :
    ∀ rem pn, (runParts env size ps pn rem).2.2 = true →
      (runParts env size ps pn rem).1.map PartTag.PartNumber = List.range' pn rem ∧
      ∀ t ∈ (runParts env size ps pn rem).1, t.ETag ≠ "" := by
  intro rem
  induction rem with
  | zero => intro pn _; simp [runParts]
  | succ n ih =>
    intro pn hflag
    unfold runParts at hflag ⊢
    cases hr : (uploadPart (env.attempt pn) pn).result with
    | none => rw [hr] at hflag; simp at hflag
    | some tag =>
      rw [hr] at hflag
      simp only [] at hflag
      have hsh := uploadPartGo_result_shape (env.attempt pn) pn 3 0 tag hr
      have hrec := ih (pn + 1) hflag
      refine ⟨?_, ?_⟩
      · simp only [List.map_cons, hrec.1, hsh.1, List.range'_succ]
      · intro t ht
        simp only [List.mem_cons] at ht
        rcases ht with rfl | ht
        · exact hsh.2
        · exact hrec.2 t ht

theorem runParts_progress (env : FileEnv) (size ps : Nat) :
    ∀ rem pn, ∃ cnt, cnt ≤ rem ∧
      (runParts env size ps pn rem).2.1 =
        (List.range' pn cnt).map (fun p => (min (p * ps) size, size)) ∧
      ((runParts env size ps pn rem).2.2 = true → cnt = rem) := by
  intro rem
  induction rem with
  | zero => intro pn; exact ⟨0, le_refl 0, by simp [runParts], fun _ => rfl⟩
  | succ n ih =>
    intro pn
    unfold runParts
    cases hr : (uploadPart (env.attempt pn) pn).result with
    | none =>
      refine ⟨0, Nat.zero_le _, by simp, ?_⟩
      intro hc; simp at hc
    | some tag =>
      obtain ⟨cnt, hle, heq, himp⟩ := ih (pn + 1)
      refine ⟨cnt + 1, by omega, ?_, ?_⟩
      · simp only [List.range'_succ, List.map_cons, heq]
      · intro hflag
        simp only [] at hflag
        rw [himp hflag]

/-! ### Sorting already-sorted part lists -/

theorem insertPart_cons_le (t h : PartTag) (l : List PartTag)
    (hle : t.PartNumber ≤ h.PartNumber) : insertPart t (h :: l) = t :: h :: l := by
  simp [insertPart, hle]

theorem sortParts_eq_self :
    ∀ l : List PartTag,
      List.Chain' (fun a b => a.PartNumber ≤ b.PartNumber) l → sortParts l = l := by
  intro l
  induction l with
  | nil => intro _; rfl
  | cons h tl ih =>
    intro hch
    have htl : List.Chain' (fun a b => a.PartNumber ≤ b.PartNumber) tl := hch.tail
    unfold sortParts
    rw [ih htl]
    cases tl with
    | nil => rfl
    | cons h2 tl2 =>
      have hle : h.PartNumber ≤ h2.PartNumber := List.chain'_cons.mp hch |>.1
      exact insertPart_cons_le h h2 tl2 hle

theorem chain'_le_of_map_range' {l : List PartTag} :
    ∀ {s n : Nat}, l.map PartTag.PartNumber = List.range' s n →
      List.Chain' (fun a b => a.PartNumber ≤ b.PartNumber) l := by
  intro s n h
  have hp : List.Pairwise (· < ·) (l.map PartTag.PartNumber) := by
    rw [h]; exact List.pairwise_lt_range' s n 1 (by omega)
  have hp2 : List.Pairwise (fun a b => a.PartNumber < b.PartNumber) l :=
    (List.pairwise_map).mp hp
  exact (hp2.imp (fun hab => Nat.le_of_lt hab)).chain'

/-! ### File uploader lemmas -/

theorem decodedSize_eq {url : String} {blob : Blob} (h : dataUrlToBlob url = some blob) :
    decodedSize url = blob.size := by
  unfold decodedSize
  rw [h]
  rfl

theorem uploadScreenshot_success (url : String) (env : FileEnv)
    (sess : MultipartSession)
    (hdec : (dataUrlToBlob url).isSome = true)
    (hcr : env.create = Except.ok sess) (hco : env.completeOk = true)
    (hp : ∀ pn, ((uploadPart (env.attempt pn) pn).result).isSome = true) :
    (uploadScreenshot url env).result = Except.ok sess.key ∧
    (uploadScreenshot url env).progress =
      (List.range' 1 sess.totalParts).map
        (fun p => (min (p * sess.partSize) (decodedSize url), decodedSize url)) := by
  obtain ⟨blob, hb⟩ := Option.isSome_iff_exists.mp hdec
  have hflag := runParts_flag_true env blob.size sess.partSize hp sess.totalParts 1
  obtain ⟨cnt, hle, heq, himp⟩ := runParts_progress env blob.size sess.partSize sess.totalParts 1
  unfold uploadScreenshot
  rw [hb, hcr]
  simp only [hflag, if_true, hco]
  refine ⟨by trivial, ?_⟩
  rw [heq, himp hflag, decodedSize_eq hb]

theorem fileSpecOf_success (url : String) (env : FileEnv) (sess : MultipartSession)
    (hdec : (dataUrlToBlob url).isSome = true)
    (hcr : env.create = Except.ok sess) (hco : env.completeOk = true)
    (hp : ∀ pn, ((uploadPart (env.attempt pn) pn).result).isSome = true) :
    (fileSpecOf url env).key = some sess.key ∧
    (fileSpecOf url env).prog = (List.range' 1 sess.totalParts).map
      (fun p => min (p * sess.partSize) (decodedSize url)) ∧
    (fileSpecOf url env).size = decodedSize url := by
  obtain ⟨hres, hprog⟩ := uploadScreenshot_success url env sess hdec hcr hco hp
  unfold fileSpecOf
  simp only [hres, hprog, List.map_map]
  exact ⟨trivial, rfl, trivial⟩

theorem fileSpecOf_key_none_iff (url : String) (env : FileEnv) :
    (fileSpecOf url env).key = none ↔
      ∃ e, (uploadScreenshot url env).result = Except.error e := by
  unfold fileSpecOf
  cases h : (uploadScreenshot url env).result with
  | ok k => simp [h]
  | error e => simp [h]

theorem fileSpecOf_prog_shape (url : String) (env : FileEnv) :
    (fileSpecOf url env).prog = [] ∨
    ∃ ps cnt, (fileSpecOf url env).prog =
      (List.range' 1 cnt).map (fun p => min (p * ps) ((fileSpecOf url env).size)) := by
  cases hd : dataUrlToBlob url with
  | none =>
    left
    unfold fileSpecOf uploadScreenshot
    rw [hd]
    rfl
  | some blob =>
    cases hcr : env.create with
    | error msg =>
      left
      unfold fileSpecOf uploadScreenshot
      rw [hd, hcr]
      rfl
    | ok sess =>
      right
      obtain ⟨cnt, hle, heq, _⟩ :=
        runParts_progress env blob.size sess.partSize sess.totalParts 1
      refine ⟨sess.partSize, cnt, ?_⟩
      have hsize : (fileSpecOf url env).size = blob.size := by
        unfold fileSpecOf
        simp only []
        exact decodedSize_eq hd
      have hprogress : (uploadScreenshot url env).progress =
          (runParts env blob.size sess.partSize 1 sess.totalParts).2.1 := by
        unfold uploadScreenshot
        rw [hd, hcr]
        rcases hfl : (runParts env blob.size sess.partSize 1 sess.totalParts).2.2 with _ | _
        · simp [hfl]
        · rcases hok : env.completeOk with _ | _
          · rcases hab : env.abortThrows with _ | _ <;> simp [hfl, hok, hab]
          · simp [hfl, hok]
      have : (fileSpecOf url env).prog =
          (runParts env blob.size sess.partSize 1 sess.totalParts).2.1.map Prod.fst := by
        unfold fileSpecOf
        simp only [hprogress]
      rw [this, heq, hsize, List.map_map]
      rfl

theorem sessionValid_size_le {sess : MultipartSession} {size : Nat}
    (h : sessionValid sess size) : size ≤ sess.totalParts * sess.partSize := by
  obtain ⟨hp, ht⟩ := h
  rcases Nat.eq_zero_or_pos size with hz | hpos
  · omega
  · have hdm := Nat.div_add_mod (size + sess.partSize - 1) sess.partSize
    have hr : (size + sess.partSize - 1) % sess.partSize < sess.partSize :=
      Nat.mod_lt _ hp
    rw [ht, Nat.mul_comm]
    omega

theorem sessionValid_parts_pos {sess : MultipartSession} {size : Nat}
    (h : sessionValid sess size) (hs : 0 < size) : 0 < sess.totalParts := by
  obtain ⟨hp, ht⟩ := h
  rw [ht]
  exact Nat.div_pos (by omega) hp

theorem uploadScreenshot_finalize_cases (url : String) (env : FileEnv) :
    (∃ blob sess, dataUrlToBlob url = some blob ∧ env.create = Except.ok sess ∧
      (runParts env blob.size sess.partSize 1 sess.totalParts).2.2 = true ∧
      (uploadScreenshot url env).finalizeParts =
        some (sortParts (runParts env blob.size sess.partSize 1 sess.totalParts).1)) ∨
    (uploadScreenshot url env).finalizeParts = none := by
  cases hd : dataUrlToBlob url with
  | none =>
    right
    unfold uploadScreenshot
    rw [hd]
  | some blob =>
    cases hcr : env.create with
    | error m =>
      right
      unfold uploadScreenshot
      rw [hd, hcr]
    | ok sess =>
      cases hfl : (runParts env blob.size sess.partSize 1 sess.totalParts).2.2 with
      | false =>
        right
        unfold uploadScreenshot
        rw [hd, hcr]
        simp [hfl]
      | true =>
        left
        refine ⟨blob, sess, rfl, rfl, hfl, ?_⟩
        unfold uploadScreenshot
        rw [hd, hcr]
        simp only [hfl, if_true]
        cases hok : env.completeOk with
        | true => simp [hok]
        | false => cases hab : env.abortThrows with
          | true => simp [hok, hab]
          | false => simp [hok, hab]

theorem uploadScreenshot_finfail (url : String) (env : FileEnv)
    {blob : Blob} {sess : MultipartSession}
    (hd : dataUrlToBlob url = some blob) (hcr : env.create = Except.ok sess)
    (hfl : (runParts env blob.size sess.partSize 1 sess.totalParts).2.2 = true)
    (hco : env.completeOk = false) :
    (uploadScreenshot url env).aborts = [(sess.key, sess.uploadId)] ∧
    (uploadScreenshot url env).result =
      Except.error (UploadError.completeFailed env.completeErr) := by
  unfold uploadScreenshot
  rw [hd, hcr]
  simp only [hfl, if_true, hco]
  cases hab : env.abortThrows with
  | true => simp [hab]
  | false => simp [hab]

/-! ### Per-file behaviour shape, for the batch invariants -/

theorem specsOf_mem {screenshots : List String} {envs : Nat → FileEnv}
    {sp : FileSpec} (h : sp ∈ specsOf screenshots envs) :
    ∃ i, i < screenshots.length ∧
      sp = fileSpecOf (screenshots.getD i "") (envs i) := by
  unfold specsOf at h
  obtain ⟨i, hi, hsp⟩ := List.mem_map.mp h
  exact ⟨i, List.mem_range.mp hi, hsp.symm⟩

theorem fileSpecOf_bounded (url : String) (env : FileEnv) :
    ∀ v ∈ (fileSpecOf url env).prog, v ≤ (fileSpecOf url env).size := by
  rcases fileSpecOf_prog_shape url env with h | ⟨ps, cnt, h⟩
  · rw [h]; intro v hv; simp at hv
  · rw [h]
    intro v hv
    obtain ⟨p, _, hpv⟩ := List.mem_map.mp hv
    rw [← hpv]
    exact Nat.min_le_right _ _

theorem fileSpecOf_mono (url : String) (env : FileEnv) :
    List.Chain' (· ≤ ·) (fileSpecOf url env).prog := by
  rcases fileSpecOf_prog_shape url env with h | ⟨ps, cnt, h⟩
  · rw [h]; exact List.chain'_nil
  · rw [h]
    rw [List.chain'_map]
    have hc : List.Chain' (· < ·) (List.range' 1 cnt) :=
      (List.pairwise_lt_range' 1 cnt 1 (by omega)).chain'
    exact hc.imp (fun a b hab =>
      min_le_min (Nat.mul_le_mul_right ps (Nat.le_of_lt hab)) (Nat.le_refl _))

theorem specsOf_bounded (screenshots : List String) (envs : Nat → FileEnv) :
    SpecsBounded (specsOf screenshots envs) := by
  intro sp hsp
  obtain ⟨i, _, rfl⟩ := specsOf_mem hsp
  exact fileSpecOf_bounded _ _

theorem specsOf_mono (screenshots : List String) (envs : Nat → FileEnv) :
    SpecsMono (specsOf screenshots envs) := by
  intro sp hsp
  obtain ⟨i, _, rfl⟩ := specsOf_mem hsp
  exact fileSpecOf_mono _ _

theorem range'_map_getLast? {α : Type} (f : Nat → α) (s : Nat) {n : Nat}
    (hn : 0 < n) : ((List.range' s n).map f).getLast? = some (f (s + n - 1)) := by
  obtain ⟨m, rfl⟩ : ∃ m, n = m + 1 := ⟨n - 1, by omega⟩
  rw [List.range'_concat, List.map_append]
  simp only [List.map_cons, List.map_nil, List.getLast?_concat]
  congr 2
  omega

theorem specsOf_complete (screenshots : List String) (envs : Nat → FileEnv)
    (hdec : ∀ u ∈ screenshots, (dataUrlToBlob u).isSome = true)
    (hsucc : ∀ i, i < screenshots.length → envSucceeds (envs i))
    (hsess : ∀ i, i < screenshots.length → ∃ sess,
      (envs i).create = Except.ok sess ∧
        sessionValid sess (decodedSize (screenshots.getD i "")))
    (hpos : ∀ i, i < screenshots.length → 0 < decodedSize (screenshots.getD i "")) :
    SpecsComplete (specsOf screenshots envs) := by
  intro sp hsp
  obtain ⟨i, hi, rfl⟩ := specsOf_mem hsp
  obtain ⟨⟨sess0, hcr0⟩, hco, hp⟩ := hsucc i hi
  obtain ⟨sess, hcr, hval⟩ := hsess i hi
  have hdecu : (dataUrlToBlob (screenshots.getD i "")).isSome = true := by
    apply hdec
    rw [List.getD_eq_getElem _ _ hi]
    exact List.getElem_mem hi
  obtain ⟨hkey, hprog, hsize⟩ :=
    fileSpecOf_success (screenshots.getD i "") (envs i) sess hdecu hcr hco hp
  have htp : 0 < sess.totalParts := sessionValid_parts_pos hval (hpos i hi)
  constructor
  · rw [hprog]
    intro hc
    have := congrArg List.length hc
    simp [List.length_range'] at this
    omega
  · rw [hprog, hsize, range'_map_getLast? _ 1 htp]
    have h1 : 1 + sess.totalParts - 1 = sess.totalParts := by omega
    rw [h1, Nat.min_eq_right (sessionValid_size_le hval)]

/-! ### Claim theorems: the blob codec (C7) -/

/-- C7, counterexample: the claim says the decode fails for *every* input
whose metadata prefix cannot be parsed, but on `"x,AAAA"` the prefix does
not parse and `dataUrlToBlob` nevertheless succeeds (falling back to the
`"image/png"` content type). -/
theorem C7_counterexample :
    prefixParses badPrefixUrl = false ∧
    dataUrlToBlob badPrefixUrl = some ⟨[0, 0, 0], "image/png"⟩ := by
  constructor
  · decide
  · decide

/-- C7 (amended): `dataUrlToBlob` fails exactly when the base64 body is
rejected by the forgiving-base64 decoder; an unparseable metadata prefix
does not fail the decode but falls back to the `"image/png"` content type.
(The function is a pure function of its input by construction.) -/
theorem C7_blob_codec_errors (s : String) :
    (dataUrlToBlob s = none ↔ atobDecode (b64Body s) = none) ∧
    (prefixParses s = false → ∀ b, dataUrlToBlob s = some b →
      b.type = "image/png") := by
  refine ⟨dataUrlToBlob_eq_none_iff s, ?_⟩
  intro hp b hb
  unfold dataUrlToBlob at hb
  unfold prefixParses at hp
  cases hA : atobDecode (b64Body s) with
  | none => rw [hA] at hb; simp at hb
  | some bs =>
    rw [hA] at hb
    rw [Option.map_some'] at hb
    have hb2 := (Option.some.injEq _ _).mp hb
    rw [← hb2]
    unfold contentTypeOf
    cases hf : findContentType (((jsSplitComma s).getD 0 "").data) with
    | none => rfl
    | some g => rw [hf] at hp; simp at hp

/-- C7 witness: the amended theorem applied at the concrete counterexample
input. -/
theorem C7_blob_codec_errors_witness :
    prefixParses badPrefixUrl = false ∧
    (Blob.mk [0, 0, 0] "image/png").type = "image/png" :=
  ⟨by decide, (C7_blob_codec_errors badPrefixUrl).2 (by decide)
    ⟨[0, 0, 0], "image/png"⟩ (by decide)⟩

/-! ### Claim theorems: the part transmitter (C3) -/

/-- C3: `uploadPart` makes at most `maxRetries` attempts (each attempt
consults the environment at a fresh attempt index — one new signed-URL
request and one new PUT); it throws exactly when all `maxRetries` attempts
fail; the delays slept are `min(1000·2^a, 10000)` for the failed attempts
`a = 0, 1, …` preceding the last attempt made, with no delay after the
final attempt; and if the first success is at attempt `a`, the call returns
that attempt's part tag after `a + 1` attempts (in particular, failing
twice then succeeding on the third attempt yields a successful result). -/
theorem C3_part_transmitter_retry (env : Nat → AttemptOutcome)
    (pn maxR : Nat) :
    (uploadPart env pn maxR).attemptsUsed ≤ maxR ∧
    ((uploadPart env pn maxR).result = none ↔
      ∀ a, a < maxR → attemptResult (env a) pn = none) ∧
    (uploadPart env pn maxR).delays =
      (List.range ((uploadPart env pn maxR).attemptsUsed - 1)).map backoffDelay ∧
    (∀ a, a + 1 < (uploadPart env pn maxR).attemptsUsed →
      attemptResult (env a) pn = none) ∧
    (∀ a t, a < maxR → (∀ b, b < a → attemptResult (env b) pn = none) →
      attemptResult (env a) pn = some t →
      (uploadPart env pn maxR).result = some t ∧
        (uploadPart env pn maxR).attemptsUsed = a + 1) := by
  refine ⟨uploadPartGo_attempts_le env pn maxR 0, ?_, ?_, ?_, ?_⟩
  · have h := uploadPartGo_none_iff env pn maxR 0
    simpa [uploadPart] using h
  · have h := uploadPartGo_delays env pn maxR 0
    simpa [uploadPart] using h
  · intro a ha
    have h := uploadPartGo_early_fail env pn maxR 0 a ha
    simpa using h
  · intro a t ha hprev hsucc
    have h := uploadPartGo_first_success env pn maxR 0 a t ha
      (fun b hb => by simpa using hprev b hb) (by simpa using hsucc)
    exact h

/-- C3 witness: an environment failing twice then succeeding on the third
attempt yields the success tag after 3 attempts with delays 1000 ms and
2000 ms. -/
theorem C3_part_transmitter_retry_witness :
    (uploadPart thirdTryEnv 7 3).result = some ⟨7, "etag-e"⟩ ∧
    (uploadPart thirdTryEnv 7 3).attemptsUsed = 3 ∧
    (uploadPart thirdTryEnv 7 3).delays = [1000, 2000] := by
  have h := C3_part_transmitter_retry thirdTryEnv 7 3
  have h5 := h.2.2.2.2 2 ⟨7, "etag-e"⟩ (by omega)
    (fun b hb => by
      interval_cases b
      · rfl
      · rfl)
    (by rfl)
  have hdel := h.2.2.1
  rw [h5.2] at hdel
  exact ⟨h5.1, h5.2, by rw [hdel]; rfl⟩

/-! ### Claim theorems: the session finalizer (C5) and its parts (C6) -/

/-- C5: whenever every part uploaded but the finalize (complete) request is
non-success, `uploadScreenshot` issues exactly one abort request carrying
the session's own `{key, uploadId}`, and the error the caller observes is
the finalize error built from the complete response (`env.completeErr`) —
never anything derived from the abort request, whose own outcome
(`env.abortThrows`, universally quantified here) is swallowed by the
`try/catch`. -/
theorem C5_finalize_abort (url : String) (env : FileEnv)
    (sess : MultipartSession)
    (hcr : env.create = Except.ok sess)
    (hfin : (uploadScreenshot url env).finalizeParts.isSome = true)
    (hco : env.completeOk = false) :
    (uploadScreenshot url env).aborts = [(sess.key, sess.uploadId)] ∧
    (uploadScreenshot url env).result =
      Except.error (UploadError.completeFailed env.completeErr) := by
  rcases uploadScreenshot_finalize_cases url env with
    ⟨blob, sess', hd, hcr', hfl, _⟩ | hnone
  · have hss : sess = sess' := by
      rw [hcr] at hcr'
      exact (Except.ok.injEq _ _).mp hcr'
    subst hss
    exact uploadScreenshot_finfail url env hd hcr' hfl hco
  · rw [hnone] at hfin
    simp at hfin

/-- C5 witness: a concrete finalize failure aborts once with the session's
key and upload id and surfaces the finalize error. -/
theorem C5_finalize_abort_witness :
    (uploadScreenshot smallUrl finFailEnv).aborts = [("key-d", "uid-d")] ∧
    (uploadScreenshot smallUrl finFailEnv).result =
      Except.error (UploadError.completeFailed "assembly failed") := by
  have h := C5_finalize_abort smallUrl finFailEnv ⟨"uid-d", "key-d", 3, 1⟩
    rfl (by decide) rfl
  exact h

/-- C6: whenever `uploadScreenshot` reaches the finalize step, the parts
array it submits to `/api/upload/complete` lists part numbers exactly
`1..totalParts`, each once, in ascending order, and every submitted
integrity token (`ETag`) is non-empty. -/
theorem C6_finalize_parts (url : String) (env : FileEnv)
    (sess : MultipartSession) (hcr : env.create = Except.ok sess) :
    ∀ l, (uploadScreenshot url env).finalizeParts = some l →
      l.map PartTag.PartNumber = List.range' 1 sess.totalParts ∧
      ∀ t ∈ l, t.ETag ≠ "" := by
  intro l hl
  rcases uploadScreenshot_finalize_cases url env with
    ⟨blob, sess', hd, hcr', hfl, hfp⟩ | hnone
  · have hss : sess = sess' := by
      rw [hcr] at hcr'
      exact (Except.ok.injEq _ _).mp hcr'
    subst hss
    have hparts := runParts_success_parts env blob.size sess.partSize
      sess.totalParts 1 hfl
    have hsort : sortParts (runParts env blob.size sess.partSize 1 sess.totalParts).1
        = (runParts env blob.size sess.partSize 1 sess.totalParts).1 :=
      sortParts_eq_self _ (chain'_le_of_map_range' hparts.1)
    rw [hfp, hsort] at hl
    obtain rfl : (runParts env blob.size sess.partSize 1 sess.totalParts).1 = l :=
      Option.some.injEq _ _ |>.mp hl
    exact hparts
  · rw [hnone] at hl
    simp at hl

/-- C6 witness: the theorem applied to the concrete one-part upload. -/
theorem C6_finalize_parts_witness :
    (uploadScreenshot smallUrl goodEnv).finalizeParts
      = some [⟨1, "etag-a"⟩] ∧
    (([⟨1, "etag-a"⟩] : List PartTag).map PartTag.PartNumber
      = List.range' 1 1) := by
  refine ⟨by decide, ?_⟩
  exact (C6_finalize_parts smallUrl goodEnv ⟨"uid-a", "key-a", 3, 1⟩ rfl
    [⟨1, "etag-a"⟩] (by decide)).1

/-! ### The inductive invariant of the worker pool -/

theorem mem_of_queue_suffix {N t : Nat} {q : List Nat}
    (h : q = (List.range N).drop t) : ∀ i ∈ q, i < N := by
  subst h
  intro i hi
  exact List.mem_range.mp (List.mem_of_mem_drop hi)

theorem nodup_of_queue_suffix {N t : Nat} {q : List Nat}
    (h : q = (List.range N).drop t) : q.Nodup := by
  subst h
  exact (List.nodup_range N).sublist (List.drop_sublist t _)

theorem worker_lt_of_getD {ws : List WStatus} {w : Nat} {st : WStatus}
    (h : ws.getD w .retired = st) (hne : st ≠ WStatus.retired) :
    w < ws.length := by
  by_contra hcon
  rw [getD_oob _ _ (by omega)] at h
  exact hne h.symm

theorem inv_init (specs : List FileSpec) (k : Nat) :
    Inv specs k (initBatch specs k) := by
  have hws : ∀ w, (initBatch specs k).workers.getD w .retired = WStatus.idle ∨
      (initBatch specs k).workers.getD w .retired = WStatus.retired := by
    intro w
    show (List.replicate (numWorkers k specs.length) WStatus.idle).getD
        w .retired = WStatus.idle ∨
      (List.replicate (numWorkers k specs.length) WStatus.idle).getD
        w .retired = WStatus.retired
    rcases Nat.lt_or_ge w (numWorkers k specs.length) with hlt | hge
    · left; exact getD_replicate _ _ hlt
    · right; exact getD_oob _ _ (by simpa using hge)
  have hact : ∀ w i,
      ((initBatch specs k).workers.getD w .retired).activeIdx = some i →
        False := by
    intro w i h
    rcases hws w with hw | hw <;> rw [hw] at h <;> simp [WStatus.activeIdx] at h
  have hres : ∀ i, (initBatch specs k).results.getD i none = none := by
    intro i
    show (List.replicate specs.length
      (none : Option (String × String))).getD i none = none
    rcases Nat.lt_or_ge i specs.length with hlt | hge
    · exact getD_replicate _ _ hlt
    · exact getD_oob _ _ (by simpa using hge)
  have hbyt : ∀ i, (initBatch specs k).bytes.getD i none = none := by
    intro i
    show (List.replicate specs.length (none : Option Nat)).getD i none = none
    rcases Nat.lt_or_ge i specs.length with hlt | hge
    · exact getD_replicate _ _ hlt
    · exact getD_oob _ _ (by simpa using hge)
  refine
    { len_results := List.length_replicate _ _
      len_bytes := List.length_replicate _ _
      len_workers := List.length_replicate _ _
      queue_suffix := ⟨0, (List.drop_zero _).symm⟩
      active_uniq := fun w w' _ i h1 _ => absurd h1 (by intro hc; exact hact w i hc)
      active_lt := fun w i h => absurd h (by intro hc; exact hact w i hc)
      active_notin_queue := fun w i h => absurd h (by intro hc; exact hact w i hc)
      active_unfilled := fun w i h => absurd h (by intro hc; exact hact w i hc)
      queue_unfilled := fun i _ => hres i
      queue_nobytes := fun i _ => hbyt i
      coverage := fun i hi => Or.inl (List.mem_range.mpr hi)
      results_spec := fun i v hv => absurd hv (by rw [hres i]; simp)
      worker_link := fun w i d h => ?_
      crashed_spec := fun w i h => ?_
      bytes_shape := fun i _ => Or.inl (hbyt i)
      retired_empty := fun w hw h => ?_
      emit_shape := fun e he => absurd he (List.not_mem_nil e) }
  · rcases hws w with hw | hw <;> rw [hw] at h <;> cases h
  · rcases hws w with hw | hw <;> rw [hw] at h <;> cases h
  · rcases hws w with hw' | hw'
    · rw [hw'] at h; cases h
    · exfalso
      have hlen : (initBatch specs k).workers.length
          = numWorkers k specs.length := List.length_replicate _ _
      rw [hlen] at hw
      have : (initBatch specs k).workers.getD w .retired = WStatus.idle := by
        show (List.replicate (numWorkers k specs.length) WStatus.idle).getD
          w .retired = WStatus.idle
        exact getD_replicate _ _ hw
      rw [this] at h
      cases h

theorem inv_step_retire {specs : List FileSpec} {k : Nat} {s : BatchState}
    (hInv : Inv specs k s) {w : Nat}
    (hst : s.workers.getD w .retired = WStatus.idle) (hq : s.queue = []) :
    Inv specs k { s with workers := s.workers.set w WStatus.retired } := by
  have hw : w < s.workers.length := worker_lt_of_getD hst (by simp)
  have hget : ∀ w', (s.workers.set w WStatus.retired).getD w' .retired =
      if w' = w then WStatus.retired else s.workers.getD w' .retired := by
    intro w'
    by_cases hww : w' = w
    · subst hww
      rw [if_pos rfl]
      exact getD_set_self _ _ _ _ hw
    · rw [getD_set_ne _ _ _ (fun hc => hww hc.symm), if_neg hww]
  refine
    { len_results := hInv.len_results
      len_bytes := hInv.len_bytes
      len_workers := by simpa using hInv.len_workers
      queue_suffix := hInv.queue_suffix
      active_uniq := ?_
      active_lt := ?_
      active_notin_queue := ?_
      active_unfilled := ?_
      queue_unfilled := hInv.queue_unfilled
      queue_nobytes := hInv.queue_nobytes
      coverage := ?_
      results_spec := hInv.results_spec
      worker_link := ?_
      crashed_spec := ?_
      bytes_shape := hInv.bytes_shape
      retired_empty := fun _ _ _ => hq
      emit_shape := hInv.emit_shape }
  · intro w1 w2 hne i h1 h2
    rw [hget w1] at h1
    rw [hget w2] at h2
    by_cases h1w : w1 = w
    · rw [if_pos h1w] at h1; simp [WStatus.activeIdx] at h1
    · rw [if_neg h1w] at h1
      by_cases h2w : w2 = w
      · rw [if_pos h2w] at h2; simp [WStatus.activeIdx] at h2
      · rw [if_neg h2w] at h2
        exact hInv.active_uniq w1 w2 hne i h1 h2
  · intro w' i h
    rw [hget w'] at h
    by_cases hww : w' = w
    · rw [if_pos hww] at h; simp [WStatus.activeIdx] at h
    · rw [if_neg hww] at h; exact hInv.active_lt w' i h
  · intro w' i h
    rw [hget w'] at h
    by_cases hww : w' = w
    · rw [if_pos hww] at h; simp [WStatus.activeIdx] at h
    · rw [if_neg hww] at h; exact hInv.active_notin_queue w' i h
  · intro w' i h
    rw [hget w'] at h
    by_cases hww : w' = w
    · rw [if_pos hww] at h; simp [WStatus.activeIdx] at h
    · rw [if_neg hww] at h; exact hInv.active_unfilled w' i h
  · intro i hi
    rcases hInv.coverage i hi with hc | ⟨w0, hc⟩ | hc
    · exact Or.inl hc
    · refine Or.inr (Or.inl ⟨w0, ?_⟩)
      rw [hget w0]
      by_cases hww : w0 = w
      · subst hww; rw [hst] at hc; simp [WStatus.activeIdx] at hc
      · rw [if_neg hww]; exact hc
    · exact Or.inr (Or.inr hc)
  · intro w' i d h
    rw [hget w'] at h
    by_cases hww : w' = w
    · rw [if_pos hww] at h; cases h
    · rw [if_neg hww] at h; exact hInv.worker_link w' i d h
  · intro w' i h
    rw [hget w'] at h
    by_cases hww : w' = w
    · rw [if_pos hww] at h; cases h
    · rw [if_neg hww] at h; exact hInv.crashed_spec w' i h

theorem getD_set_split {α : Type} (l : List α) {w : Nat} (hw : w < l.length)
    (a d : α) (w' : Nat) :
    (l.set w a).getD w' d = if w' = w then a else l.getD w' d := by
  by_cases hww : w' = w
  · subst hww
    rw [if_pos rfl]
    exact getD_set_self _ _ _ _ hw
  · rw [getD_set_ne _ _ _ (fun hc => hww hc.symm), if_neg hww]

theorem inv_step_take {specs : List FileSpec} {k : Nat} {s : BatchState}
    (hInv : Inv specs k s) {w i : Nat} {rest : List Nat}
    (hst : s.workers.getD w .retired = WStatus.idle)
    (hq : s.queue = i :: rest) :
    Inv specs k { s with
      queue := rest,
      workers := s.workers.set w (WStatus.working i 0) } := by
  have hw : w < s.workers.length := worker_lt_of_getD hst (by simp)
  obtain ⟨t, ht⟩ := hInv.queue_suffix
  have hiq : i ∈ s.queue := by rw [hq]; exact List.mem_cons_self i rest
  have hiN : i < specs.length := mem_of_queue_suffix ht i hiq
  have hresi : s.results.getD i none = none := hInv.queue_unfilled i hiq
  have hbyti : s.bytes.getD i none = none := hInv.queue_nobytes i hiq
  have hnotheld : ∀ w', (s.workers.getD w' .retired).activeIdx = some i → False :=
    fun w' h => hInv.active_notin_queue w' i h hiq
  have hinr : i ∉ rest := by
    have hnd : s.queue.Nodup := nodup_of_queue_suffix ht
    rw [hq] at hnd
    exact (List.nodup_cons.mp hnd).1
  have hrestsub : ∀ j ∈ rest, j ∈ s.queue := by
    intro j hj
    rw [hq]
    exact List.mem_cons_of_mem i hj
  have hsuffix : rest = (List.range specs.length).drop (t + 1) := by
    have h1 : List.drop 1 s.queue = rest := by rw [hq]; rfl
    rw [ht, List.drop_drop] at h1
    exact h1.symm
  have hgw : ∀ w', (s.workers.set w (WStatus.working i 0)).getD w' .retired =
      if w' = w then WStatus.working i 0 else s.workers.getD w' .retired :=
    getD_set_split s.workers hw _ _
  refine
    { len_results := hInv.len_results
      len_bytes := hInv.len_bytes
      len_workers := by simpa using hInv.len_workers
      queue_suffix := ⟨t + 1, hsuffix⟩
      active_uniq := ?_
      active_lt := ?_
      active_notin_queue := ?_
      active_unfilled := ?_
      queue_unfilled := fun j hj => hInv.queue_unfilled j (hrestsub j hj)
      queue_nobytes := fun j hj => hInv.queue_nobytes j (hrestsub j hj)
      coverage := ?_
      results_spec := hInv.results_spec
      worker_link := ?_
      crashed_spec := ?_
      bytes_shape := hInv.bytes_shape
      retired_empty := ?_
      emit_shape := hInv.emit_shape }
  · intro w1 w2 hne j h1 h2
    rw [hgw w1] at h1
    rw [hgw w2] at h2
    by_cases h1w : w1 = w
    · rw [if_pos h1w] at h1
      simp only [WStatus.activeIdx, Option.some.injEq] at h1
      subst h1
      have h2w : ¬ w2 = w := fun hc => hne (h1w.trans hc.symm)
      rw [if_neg h2w] at h2
      exact hnotheld w2 h2
    · rw [if_neg h1w] at h1
      by_cases h2w : w2 = w
      · rw [if_pos h2w] at h2
        simp only [WStatus.activeIdx, Option.some.injEq] at h2
        subst h2
        exact hnotheld w1 h1
      · rw [if_neg h2w] at h2
        exact hInv.active_uniq w1 w2 hne j h1 h2
  · intro w' j h
    rw [hgw w'] at h
    by_cases hww : w' = w
    · rw [if_pos hww] at h
      simp only [WStatus.activeIdx, Option.some.injEq] at h
      subst h
      exact hiN
    · rw [if_neg hww] at h
      exact hInv.active_lt w' j h
  · intro w' j h
    rw [hgw w'] at h
    by_cases hww : w' = w
    · rw [if_pos hww] at h
      simp only [WStatus.activeIdx, Option.some.injEq] at h
      subst h
      exact hinr
    · rw [if_neg hww] at h
      intro hjr
      exact hInv.active_notin_queue w' j h (hrestsub j hjr)
  · intro w' j h
    rw [hgw w'] at h
    by_cases hww : w' = w
    · rw [if_pos hww] at h
      simp only [WStatus.activeIdx, Option.some.injEq] at h
      subst h
      exact hresi
    · rw [if_neg hww] at h
      exact hInv.active_unfilled w' j h
  · intro j hj
    rcases hInv.coverage j hj with hc | ⟨w0, hc⟩ | hc
    · rw [hq] at hc
      rcases List.mem_cons.mp hc with rfl | hc
      · refine Or.inr (Or.inl ⟨w, ?_⟩)
        rw [hgw w, if_pos rfl]
        rfl
      · exact Or.inl hc
    · have hw0 : ¬ w0 = w := by
        intro hc2
        rw [hc2, hst] at hc
        simp [WStatus.activeIdx] at hc
      refine Or.inr (Or.inl ⟨w0, ?_⟩)
      rw [hgw w0, if_neg hw0]
      exact hc
    · exact Or.inr (Or.inr hc)
  · intro w' j d h
    rw [hgw w'] at h
    by_cases hww : w' = w
    · rw [if_pos hww] at h
      cases h
      exact ⟨Nat.zero_le _, hbyti⟩
    · rw [if_neg hww] at h
      exact hInv.worker_link w' j d h
  · intro w' j h
    rw [hgw w'] at h
    by_cases hww : w' = w
    · rw [if_pos hww] at h
      cases h
    · rw [if_neg hww] at h
      exact hInv.crashed_spec w' j h
  · intro w' hw' h
    rw [hgw w'] at h
    by_cases hww : w' = w
    · rw [if_pos hww] at h
      cases h
    · rw [if_neg hww] at h
      exfalso
      have := hInv.retired_empty w' (by simpa using hw') h
      rw [hq] at this
      cases this

theorem inv_step_part {specs : List FileSpec} {k : Nat} {s : BatchState}
    (hInv : Inv specs k s) {w i d : Nat}
    (hst : s.workers.getD w .retired = WStatus.working i d)
    (hd : d < (specs.getD i default).prog.length)
    {b' : List (Option Nat)}
    (hb' : b' = s.bytes.set i (some ((specs.getD i default).prog.getD d 0))) :
    Inv specs k { s with
      bytes := b',
      emitted := s.emitted ++ [⟨mapSum b', totalBytesOf specs,
        percentOf (mapSum b') (totalBytesOf specs), mapCard b', specs.length⟩],
      workers := s.workers.set w (WStatus.working i (d + 1)) } := by
  have hw : w < s.workers.length := worker_lt_of_getD hst (by simp)
  have hactw : (s.workers.getD w .retired).activeIdx = some i := by
    rw [hst]; rfl
  have hiN : i < specs.length := hInv.active_lt w i hactw
  have hib : i < s.bytes.length := by rw [hInv.len_bytes]; exact hiN
  have hresi : s.results.getD i none = none := hInv.active_unfilled w i hactw
  have hinotq : i ∉ s.queue := hInv.active_notin_queue w i hactw
  have huniq : ∀ w', ¬ w' = w →
      (s.workers.getD w' .retired).activeIdx = some i → False :=
    fun w' hne h => hInv.active_uniq w' w hne i h hactw
  have hbg : ∀ j, b'.getD j none =
      if j = i then some ((specs.getD i default).prog.getD d 0)
      else s.bytes.getD j none := by
    intro j
    rw [hb']
    exact getD_set_split s.bytes hib _ _ j
  have hgw : ∀ w', (s.workers.set w (WStatus.working i (d + 1))).getD w' .retired =
      if w' = w then WStatus.working i (d + 1)
      else s.workers.getD w' .retired :=
    getD_set_split s.workers hw _ _
  refine
    { len_results := hInv.len_results
      len_bytes := by rw [hb']; simpa using hInv.len_bytes
      len_workers := by simpa using hInv.len_workers
      queue_suffix := hInv.queue_suffix
      active_uniq := ?_
      active_lt := ?_
      active_notin_queue := ?_
      active_unfilled := ?_
      queue_unfilled := hInv.queue_unfilled
      queue_nobytes := ?_
      coverage := ?_
      results_spec := ?_
      worker_link := ?_
      crashed_spec := ?_
      bytes_shape := ?_
      retired_empty := ?_
      emit_shape := ?_ }
  · intro w1 w2 hne j h1 h2
    rw [hgw w1] at h1
    rw [hgw w2] at h2
    by_cases h1w : w1 = w
    · rw [if_pos h1w] at h1
      simp only [WStatus.activeIdx, Option.some.injEq] at h1
      subst h1
      have h2w : ¬ w2 = w := fun hc => hne (h1w.trans hc.symm)
      rw [if_neg h2w] at h2
      exact huniq w2 h2w h2
    · rw [if_neg h1w] at h1
      by_cases h2w : w2 = w
      · rw [if_pos h2w] at h2
        simp only [WStatus.activeIdx, Option.some.injEq] at h2
        subst h2
        exact huniq w1 h1w h1
      · rw [if_neg h2w] at h2
        exact hInv.active_uniq w1 w2 hne j h1 h2
  · intro w' j h
    rw [hgw w'] at h
    by_cases hww : w' = w
    · rw [if_pos hww] at h
      simp only [WStatus.activeIdx, Option.some.injEq] at h
      subst h
      exact hiN
    · rw [if_neg hww] at h
      exact hInv.active_lt w' j h
  · intro w' j h
    rw [hgw w'] at h
    by_cases hww : w' = w
    · rw [if_pos hww] at h
      simp only [WStatus.activeIdx, Option.some.injEq] at h
      subst h
      exact hinotq
    · rw [if_neg hww] at h
      exact hInv.active_notin_queue w' j h
  · intro w' j h
    rw [hgw w'] at h
    by_cases hww : w' = w
    · rw [if_pos hww] at h
      simp only [WStatus.activeIdx, Option.some.injEq] at h
      subst h
      exact hresi
    · rw [if_neg hww] at h
      exact hInv.active_unfilled w' j h
  · intro j hj
    rw [hbg j, if_neg (fun hc : j = i => hinotq (hc ▸ hj))]
    exact hInv.queue_nobytes j hj
  · intro j hj
    rcases hInv.coverage j hj with hc | ⟨w0, hc⟩ | hc
    · exact Or.inl hc
    · by_cases hww : w0 = w
      · rw [hww, hactw] at hc
        obtain rfl : j = i := by
          simpa using hc.symm
        refine Or.inr (Or.inl ⟨w, ?_⟩)
        rw [hgw w, if_pos rfl]
        rfl
      · refine Or.inr (Or.inl ⟨w0, ?_⟩)
        rw [hgw w0, if_neg hww]
        exact hc
    · exact Or.inr (Or.inr hc)
  · intro j v hv
    have hji : ¬ j = i := by
      intro hc
      rw [hc, hresi] at hv
      cases hv
    obtain ⟨h1, h2, h3⟩ := hInv.results_spec j v hv
    refine ⟨h1, h2, ?_⟩
    rw [hbg j, if_neg hji]
    exact h3
  · intro w' j d' h
    rw [hgw w'] at h
    by_cases hww : w' = w
    · rw [if_pos hww] at h
      cases h
      refine ⟨hd, ?_⟩
      rw [hbg i, if_pos rfl]
    · rw [if_neg hww] at h
      have hji : ¬ j = i := by
        intro hc
        subst hc
        exact huniq w' hww (by rw [h]; rfl)
      obtain ⟨hl1, hl2⟩ := hInv.worker_link w' j d' h
      refine ⟨hl1, ?_⟩
      rw [hbg j, if_neg hji]
      exact hl2
  · intro w' j h
    rw [hgw w'] at h
    by_cases hww : w' = w
    · rw [if_pos hww] at h
      cases h
    · rw [if_neg hww] at h
      exact hInv.crashed_spec w' j h
  · intro j hj
    by_cases hji : j = i
    · subst hji
      refine Or.inr (Or.inl ⟨d, hd, ?_⟩)
      rw [hbg j, if_pos rfl]
    · rcases hInv.bytes_shape j hj with hc | ⟨d0, hd0, hc⟩ | hc
      · left; rw [hbg j, if_neg hji]; exact hc
      · refine Or.inr (Or.inl ⟨d0, hd0, ?_⟩)
        rw [hbg j, if_neg hji]
        exact hc
      · refine Or.inr (Or.inr ?_)
        rw [hbg j, if_neg hji]
        exact hc
  · intro w' hw' h
    rw [hgw w'] at h
    by_cases hww : w' = w
    · rw [if_pos hww] at h
      cases h
    · rw [if_neg hww] at h
      exact hInv.retired_empty w' (by simpa using hw') h
  · intro e he
    rcases List.mem_append.mp he with hold | hnew
    · exact hInv.emit_shape e hold
    · obtain rfl : e = ⟨mapSum b', totalBytesOf specs,
          percentOf (mapSum b') (totalBytesOf specs), mapCard b',
          specs.length⟩ := by
        simpa using hnew
      exact ⟨rfl, rfl, rfl⟩

theorem inv_step_finish {specs : List FileSpec} {k : Nat} {s : BatchState}
    (hInv : Inv specs k s) {w i d : Nat} {kk : String}
    (hst : s.workers.getD w .retired = WStatus.working i d)
    (hkey : (specs.getD i default).key = some kk) :
    Inv specs k { s with
      results := s.results.set i (some (kk, pageFilename i)),
      bytes := s.bytes.set i (some (specs.getD i default).size),
      workers := s.workers.set w WStatus.idle } := by
  have hw : w < s.workers.length := worker_lt_of_getD hst (by simp)
  have hactw : (s.workers.getD w .retired).activeIdx = some i := by
    rw [hst]; rfl
  have hiN : i < specs.length := hInv.active_lt w i hactw
  have hib : i < s.bytes.length := by rw [hInv.len_bytes]; exact hiN
  have hir : i < s.results.length := by rw [hInv.len_results]; exact hiN
  have hresi : s.results.getD i none = none := hInv.active_unfilled w i hactw
  have hinotq : i ∉ s.queue := hInv.active_notin_queue w i hactw
  have huniq : ∀ w', ¬ w' = w →
      (s.workers.getD w' .retired).activeIdx = some i → False :=
    fun w' hne h => hInv.active_uniq w' w hne i h hactw
  have hrg : ∀ j, (s.results.set i (some (kk, pageFilename i))).getD j none =
      if j = i then some (kk, pageFilename i) else s.results.getD j none :=
    getD_set_split s.results hir _ _
  have hbg : ∀ j, (s.bytes.set i (some (specs.getD i default).size)).getD j none =
      if j = i then some (specs.getD i default).size
      else s.bytes.getD j none :=
    getD_set_split s.bytes hib _ _
  have hgw : ∀ w', (s.workers.set w WStatus.idle).getD w' .retired =
      if w' = w then WStatus.idle else s.workers.getD w' .retired :=
    getD_set_split s.workers hw _ _
  refine
    { len_results := by simpa using hInv.len_results
      len_bytes := by simpa using hInv.len_bytes
      len_workers := by simpa using hInv.len_workers
      queue_suffix := hInv.queue_suffix
      active_uniq := ?_
      active_lt := ?_
      active_notin_queue := ?_
      active_unfilled := ?_
      queue_unfilled := ?_
      queue_nobytes := ?_
      coverage := ?_
      results_spec := ?_
      worker_link := ?_
      crashed_spec := ?_
      bytes_shape := ?_
      retired_empty := ?_
      emit_shape := hInv.emit_shape }
  · intro w1 w2 hne j h1 h2
    rw [hgw w1] at h1
    rw [hgw w2] at h2
    by_cases h1w : w1 = w
    · rw [if_pos h1w] at h1
      simp [WStatus.activeIdx] at h1
    · rw [if_neg h1w] at h1
      by_cases h2w : w2 = w
      · rw [if_pos h2w] at h2
        simp [WStatus.activeIdx] at h2
      · rw [if_neg h2w] at h2
        exact hInv.active_uniq w1 w2 hne j h1 h2
  · intro w' j h
    rw [hgw w'] at h
    by_cases hww : w' = w
    · rw [if_pos hww] at h
      simp [WStatus.activeIdx] at h
    · rw [if_neg hww] at h
      exact hInv.active_lt w' j h
  · intro w' j h
    rw [hgw w'] at h
    by_cases hww : w' = w
    · rw [if_pos hww] at h
      simp [WStatus.activeIdx] at h
    · rw [if_neg hww] at h
      exact hInv.active_notin_queue w' j h
  · intro w' j h
    rw [hgw w'] at h
    by_cases hww : w' = w
    · rw [if_pos hww] at h
      simp [WStatus.activeIdx] at h
    · rw [if_neg hww] at h
      have hji : ¬ j = i := by
        intro hc
        subst hc
        exact huniq w' hww h
      rw [hrg j, if_neg hji]
      exact hInv.active_unfilled w' j h
  · intro j hj
    rw [hrg j, if_neg (fun hc : j = i => hinotq (hc ▸ hj))]
    exact hInv.queue_unfilled j hj
  · intro j hj
    rw [hbg j, if_neg (fun hc : j = i => hinotq (hc ▸ hj))]
    exact hInv.queue_nobytes j hj
  · intro j hj
    by_cases hji : j = i
    · subst hji
      refine Or.inr (Or.inr ?_)
      rw [hrg j, if_pos rfl]
      rfl
    · rcases hInv.coverage j hj with hc | ⟨w0, hc⟩ | hc
      · exact Or.inl hc
      · by_cases hww : w0 = w
        · subst hww
          rw [hactw] at hc
          exact absurd (by simpa using hc.symm) hji
        · refine Or.inr (Or.inl ⟨w0, ?_⟩)
          rw [hgw w0, if_neg hww]
          exact hc
      · refine Or.inr (Or.inr ?_)
        rw [hrg j, if_neg hji]
        exact hc
  · intro j v hv
    rw [hrg j] at hv
    by_cases hji : j = i
    · rw [if_pos hji] at hv
      subst hji
      obtain rfl : (kk, pageFilename j) = v := by simpa using hv
      refine ⟨by simpa using hkey, rfl, ?_⟩
      rw [hbg j, if_pos rfl]
    · rw [if_neg hji] at hv
      obtain ⟨h1, h2, h3⟩ := hInv.results_spec j v hv
      refine ⟨h1, h2, ?_⟩
      rw [hbg j, if_neg hji]
      exact h3
  · intro w' j d' h
    rw [hgw w'] at h
    by_cases hww : w' = w
    · rw [if_pos hww] at h
      cases h
    · rw [if_neg hww] at h
      have hji : ¬ j = i := by
        intro hc
        subst hc
        exact huniq w' hww (by rw [h]; rfl)
      obtain ⟨hl1, hl2⟩ := hInv.worker_link w' j d' h
      refine ⟨hl1, ?_⟩
      rw [hbg j, if_neg hji]
      exact hl2
  · intro w' j h
    rw [hgw w'] at h
    by_cases hww : w' = w
    · rw [if_pos hww] at h
      cases h
    · rw [if_neg hww] at h
      exact hInv.crashed_spec w' j h
  · intro j hj
    by_cases hji : j = i
    · subst hji
      refine Or.inr (Or.inr ?_)
      rw [hbg j, if_pos rfl]
    · rcases hInv.bytes_shape j hj with hc | ⟨d0, hd0, hc⟩ | hc
      · left; rw [hbg j, if_neg hji]; exact hc
      · refine Or.inr (Or.inl ⟨d0, hd0, ?_⟩)
        rw [hbg j, if_neg hji]
        exact hc
      · refine Or.inr (Or.inr ?_)
        rw [hbg j, if_neg hji]
        exact hc
  · intro w' hw' h
    rw [hgw w'] at h
    by_cases hww : w' = w
    · rw [if_pos hww] at h
      cases h
    · rw [if_neg hww] at h
      exact hInv.retired_empty w' (by simpa using hw') h

theorem inv_step_crash {specs : List FileSpec} {k : Nat} {s : BatchState}
    (hInv : Inv specs k s) {w i d : Nat}
    (hst : s.workers.getD w .retired = WStatus.working i d)
    (hkey : (specs.getD i default).key = none) :
    Inv specs k { s with workers := s.workers.set w (WStatus.crashed i) } := by
  have hw : w < s.workers.length := worker_lt_of_getD hst (by simp)
  have hactw : (s.workers.getD w .retired).activeIdx = some i := by
    rw [hst]; rfl
  have hiN : i < specs.length := hInv.active_lt w i hactw
  have hresi : s.results.getD i none = none := hInv.active_unfilled w i hactw
  have hinotq : i ∉ s.queue := hInv.active_notin_queue w i hactw
  have huniq : ∀ w', ¬ w' = w →
      (s.workers.getD w' .retired).activeIdx = some i → False :=
    fun w' hne h => hInv.active_uniq w' w hne i h hactw
  have hgw : ∀ w', (s.workers.set w (WStatus.crashed i)).getD w' .retired =
      if w' = w then WStatus.crashed i else s.workers.getD w' .retired :=
    getD_set_split s.workers hw _ _
  refine
    { len_results := hInv.len_results
      len_bytes := hInv.len_bytes
      len_workers := by simpa using hInv.len_workers
      queue_suffix := hInv.queue_suffix
      active_uniq := ?_
      active_lt := ?_
      active_notin_queue := ?_
      active_unfilled := ?_
      queue_unfilled := hInv.queue_unfilled
      queue_nobytes := hInv.queue_nobytes
      coverage := ?_
      results_spec := hInv.results_spec
      worker_link := ?_
      crashed_spec := ?_
      bytes_shape := hInv.bytes_shape
      retired_empty := ?_
      emit_shape := hInv.emit_shape }
  · intro w1 w2 hne j h1 h2
    rw [hgw w1] at h1
    rw [hgw w2] at h2
    by_cases h1w : w1 = w
    · rw [if_pos h1w] at h1
      simp only [WStatus.activeIdx, Option.some.injEq] at h1
      subst h1
      have h2w : ¬ w2 = w := fun hc => hne (h1w.trans hc.symm)
      rw [if_neg h2w] at h2
      exact huniq w2 h2w h2
    · rw [if_neg h1w] at h1
      by_cases h2w : w2 = w
      · rw [if_pos h2w] at h2
        simp only [WStatus.activeIdx, Option.some.injEq] at h2
        subst h2
        exact huniq w1 h1w h1
      · rw [if_neg h2w] at h2
        exact hInv.active_uniq w1 w2 hne j h1 h2
  · intro w' j h
    rw [hgw w'] at h
    by_cases hww : w' = w
    · rw [if_pos hww] at h
      simp only [WStatus.activeIdx, Option.some.injEq] at h
      subst h
      exact hiN
    · rw [if_neg hww] at h
      exact hInv.active_lt w' j h
  · intro w' j h
    rw [hgw w'] at h
    by_cases hww : w' = w
    · rw [if_pos hww] at h
      simp only [WStatus.activeIdx, Option.some.injEq] at h
      subst h
      exact hinotq
    · rw [if_neg hww] at h
      exact hInv.active_notin_queue w' j h
  · intro w' j h
    rw [hgw w'] at h
    by_cases hww : w' = w
    · rw [if_pos hww] at h
      simp only [WStatus.activeIdx, Option.some.injEq] at h
      subst h
      exact hresi
    · rw [if_neg hww] at h
      exact hInv.active_unfilled w' j h
  · intro j hj
    rcases hInv.coverage j hj with hc | ⟨w0, hc⟩ | hc
    · exact Or.inl hc
    · by_cases hww : w0 = w
      · rw [hww, hactw] at hc
        obtain rfl : j = i := by simpa using hc.symm
        refine Or.inr (Or.inl ⟨w, ?_⟩)
        rw [hgw w, if_pos rfl]
        rfl
      · refine Or.inr (Or.inl ⟨w0, ?_⟩)
        rw [hgw w0, if_neg hww]
        exact hc
    · exact Or.inr (Or.inr hc)
  · intro w' j d' h
    rw [hgw w'] at h
    by_cases hww : w' = w
    · rw [if_pos hww] at h
      cases h
    · rw [if_neg hww] at h
      exact hInv.worker_link w' j d' h
  · intro w' j h
    rw [hgw w'] at h
    by_cases hww : w' = w
    · rw [if_pos hww] at h
      cases h
      exact hkey
    · rw [if_neg hww] at h
      exact hInv.crashed_spec w' j h
  · intro w' hw' h
    rw [hgw w'] at h
    by_cases hww : w' = w
    · rw [if_pos hww] at h
      cases h
    · rw [if_neg hww] at h
      exact hInv.retired_empty w' (by simpa using hw') h

theorem inv_step (specs : List FileSpec) (k : Nat) (s : BatchState)
    (hInv : Inv specs k s) (w : Nat) :
    Inv specs k (stepWorker specs s w) := by
  cases hst : s.workers.getD w .retired with
  | retired =>
    unfold stepWorker
    rw [hst]
    exact hInv
  | crashed i =>
    unfold stepWorker
    rw [hst]
    exact hInv
  | idle =>
    unfold stepWorker
    rw [hst]
    cases hq : s.queue with
    | nil =>
      have h2 := inv_step_retire hInv hst hq
      rw [hq] at h2
      exact h2
    | cons i rest => exact inv_step_take hInv hst hq
  | working i d =>
    unfold stepWorker
    rw [hst]
    show Inv specs k
      (if d < (specs.getD i default).prog.length then
        { s with
          bytes := s.bytes.set i (some ((specs.getD i default).prog.getD d 0)),
          emitted := s.emitted ++
            [⟨mapSum (s.bytes.set i (some ((specs.getD i default).prog.getD d 0))),
              totalBytesOf specs,
              percentOf
                (mapSum (s.bytes.set i (some ((specs.getD i default).prog.getD d 0))))
                (totalBytesOf specs),
              mapCard (s.bytes.set i (some ((specs.getD i default).prog.getD d 0))),
              specs.length⟩],
          workers := s.workers.set w (WStatus.working i (d + 1)) }
      else
        match (specs.getD i default).key with
        | some kk =>
          { s with
            results := s.results.set i (some (kk, pageFilename i)),
            bytes := s.bytes.set i (some (specs.getD i default).size),
            workers := s.workers.set w WStatus.idle }
        | none => { s with workers := s.workers.set w (WStatus.crashed i) })
    by_cases hd : d < (specs.getD i default).prog.length
    · rw [if_pos hd]
      exact inv_step_part hInv hst hd rfl
    · rw [if_neg hd]
      cases hkey : (specs.getD i default).key with
      | some kk => exact inv_step_finish hInv hst hkey
      | none => exact inv_step_crash hInv hst hkey

theorem inv_run (specs : List FileSpec) (k : Nat) :
    ∀ (sched : List Nat) (s : BatchState), Inv specs k s →
      Inv specs k (sched.foldl (stepWorker specs) s) := by
  intro sched
  induction sched with
  | nil => intro s h; exact h
  | cons w rest ih =>
    intro s h
    exact ih _ (inv_step specs k s h w)

theorem inv_runBatch (specs : List FileSpec) (k : Nat) (sched : List Nat) :
    Inv specs k (runBatch specs k sched) :=
  inv_run specs k sched _ (inv_init specs k)

/-! ### Terminal states -/

theorem terminal_no_active {s : BatchState} (ht : terminalB s = true)
    (hnc : s.workers.any WStatus.isCrashed = false) :
    ∀ w, w < s.workers.length →
      s.workers.getD w .retired = WStatus.retired := by
  intro w hw
  have hall := List.all_eq_true.mp ht
  have hmem : s.workers.getD w .retired ∈ s.workers := by
    rw [List.getD_eq_getElem _ _ hw]
    exact List.getElem_mem hw
  have hstop := hall _ hmem
  cases hcase : s.workers.getD w .retired with
  | retired => rfl
  | idle => rw [hcase] at hstop; simp [WStatus.isStopped] at hstop
  | working i d => rw [hcase] at hstop; simp [WStatus.isStopped] at hstop
  | crashed i =>
    exfalso
    have hcr : WStatus.isCrashed (s.workers.getD w .retired) = true := by
      rw [hcase]; rfl
    have hany : s.workers.any WStatus.isCrashed = true :=
      List.any_eq_true.mpr ⟨_, hmem, hcr⟩
    rw [hnc] at hany
    cases hany

theorem terminal_all_filled {specs : List FileSpec} {k : Nat} {s : BatchState}
    (hInv : Inv specs k s) (ht : terminalB s = true)
    (hnc : s.workers.any WStatus.isCrashed = false) (hk : 1 ≤ k) :
    ∀ i, i < specs.length → ∃ v, s.results.getD i none = some v := by
  intro i hiN
  have hN : 0 < specs.length := by omega
  have hw0 : 0 < s.workers.length := by
    rw [hInv.len_workers]
    exact Nat.lt_min.mpr ⟨hk, hN⟩
  have hret0 : s.workers.getD 0 .retired = WStatus.retired :=
    terminal_no_active ht hnc 0 hw0
  have hqe : s.queue = [] := hInv.retired_empty 0 hw0 hret0
  rcases hInv.coverage i hiN with hc | ⟨w0, hc⟩ | hc
  · rw [hqe] at hc
    cases hc
  · exfalso
    have hret : s.workers.getD w0 .retired = WStatus.retired := by
      rcases Nat.lt_or_ge w0 s.workers.length with hlt | hge
      · exact terminal_no_active ht hnc w0 hlt
      · exact getD_oob _ _ hge
    rw [hret] at hc
    simp [WStatus.activeIdx] at hc
  · exact Option.isSome_iff_exists.mp hc

/-! ### Reducing `uploadScreenshots` and `specsOf` -/

theorem specsOf_length (screenshots : List String) (envs : Nat → FileEnv) :
    (specsOf screenshots envs).length = screenshots.length := by
  simp [specsOf]

theorem specsOf_getD (screenshots : List String) (envs : Nat → FileEnv)
    {i : Nat} (hi : i < screenshots.length) :
    (specsOf screenshots envs).getD i default =
      fileSpecOf (screenshots.getD i "") (envs i) := by
  unfold specsOf
  have hi2 : i < ((List.range screenshots.length).map
      (fun i => fileSpecOf (screenshots.getD i "") (envs i))).length := by
    simpa using hi
  rw [List.getD_eq_getElem _ _ hi2]
  rw [List.getElem_map]
  simp

theorem uploadScreenshots_reduce (screenshots : List String)
    (envs : Nat → FileEnv) (k : Nat) (sched : List Nat)
    (hdec : ∀ u ∈ screenshots, (dataUrlToBlob u).isSome = true) :
    uploadScreenshots screenshots envs k sched =
      (batchOutcome (runBatch (specsOf screenshots envs) k sched),
       (runBatch (specsOf screenshots envs) k sched).emitted) := by
  unfold uploadScreenshots
  have hae : (screenshots.map dataUrlToBlob).any Option.isNone = false := by
    rw [List.any_eq_false]
    intro x hx
    obtain ⟨u, hu, rfl⟩ := List.mem_map.mp hx
    have hs := hdec u hu
    intro hcon
    cases hd : dataUrlToBlob u with
    | none => rw [hd] at hs; cases hs
    | some b => rw [hd] at hcon; cases hcon
  rw [hae]
  simp

theorem envSucceeds_key (url : String) (env : FileEnv)
    (hdec : (dataUrlToBlob url).isSome = true) (hs : envSucceeds env) :
    (fileSpecOf url env).key = some (createdKey env) := by
  obtain ⟨⟨sess, hcr⟩, hco, hp⟩ := hs
  have h := (fileSpecOf_success url env sess hdec hcr hco hp).1
  rw [h]
  unfold createdKey
  rw [hcr]

theorem nodup_filterMap_activeIdx :
    ∀ ws : List WStatus,
      (∀ w w', ¬ w = w' → ∀ i, (ws.getD w .retired).activeIdx = some i →
        (ws.getD w' .retired).activeIdx = some i → False) →
      (ws.filterMap WStatus.activeIdx).Nodup := by
  intro ws
  induction ws with
  | nil => intro _; exact List.nodup_nil
  | cons st rest ih =>
    intro h
    have hrest : (rest.filterMap WStatus.activeIdx).Nodup := by
      apply ih
      intro w w' hne i h1 h2
      exact h (w + 1) (w' + 1) (by omega) i (by simpa using h1) (by simpa using h2)
    cases hst : st.activeIdx with
    | none => simpa [List.filterMap_cons, hst] using hrest
    | some i =>
      rw [List.filterMap_cons, hst]
      refine List.nodup_cons.mpr ⟨?_, hrest⟩
      intro hmem
      obtain ⟨st', hst', hact'⟩ := List.mem_filterMap.mp hmem
      obtain ⟨j, hj, hj2⟩ := List.mem_iff_getElem.mp hst'
      refine h 0 (j + 1) (by omega) i ?_ ?_
      · simpa using hst
      · have : (st :: rest).getD (j + 1) .retired = st' := by
          rw [List.getD_cons_succ, List.getD_eq_getElem _ _ hj, hj2]
        rw [this]
        exact hact'

/-! ### Claim theorems: the batch orchestrator -/

/-- C1: on a batch in which every input decodes and every file's network
operations eventually succeed, every complete run of the worker pool — under
any schedule, i.e. any I/O completion order and any concurrency `k ≥ 1` —
resolves with exactly one outcome per input, where slot `i` holds the
filename `page_{i+1}.png` and the storage key returned by that item's own
create-session call. -/
theorem C1_batch_order_preserved (screenshots : List String)
    (envs : Nat → FileEnv) (k : Nat) (sched : List Nat)
    (hk : 1 ≤ k)
    (hdec : ∀ u ∈ screenshots, (dataUrlToBlob u).isSome = true)
    (hsucc : ∀ i, i < screenshots.length → envSucceeds (envs i))
    (hterm : terminalB (runBatch (specsOf screenshots envs) k sched) = true) :
    ∃ outs, (uploadScreenshots screenshots envs k sched).1 = Except.ok outs ∧
      outs.length = screenshots.length ∧
      ∀ i, i < screenshots.length →
        outs.getD i ("", "") = (createdKey (envs i), pageFilename i) := by
  have hred := uploadScreenshots_reduce screenshots envs k sched hdec
  have hInv := inv_runBatch (specsOf screenshots envs) k sched
  have hlen := specsOf_length screenshots envs
  have hkeys : ∀ i, i < screenshots.length →
      ((specsOf screenshots envs).getD i default).key
        = some (createdKey (envs i)) := by
    intro i hi
    rw [specsOf_getD screenshots envs hi]
    apply envSucceeds_key
    · apply hdec
      rw [List.getD_eq_getElem _ _ hi]
      exact List.getElem_mem hi
    · exact hsucc i hi
  set st := runBatch (specsOf screenshots envs) k sched with hst
  have hnc : st.workers.any WStatus.isCrashed = false := by
    cases hany : st.workers.any WStatus.isCrashed with
    | false => rfl
    | true =>
      exfalso
      obtain ⟨w0, hw0mem, hw0cr⟩ := List.any_eq_true.mp hany
      obtain ⟨j, hj, hj2⟩ := List.mem_iff_getElem.mp hw0mem
      cases hcase : w0 with
      | crashed i =>
        have hgd : st.workers.getD j .retired = WStatus.crashed i := by
          rw [List.getD_eq_getElem _ _ hj, hj2, hcase]
        have hiN : i < (specsOf screenshots envs).length :=
          hInv.active_lt j i (by rw [hgd]; rfl)
        have hkn := hInv.crashed_spec j i hgd
        have hks := hkeys i (by rw [← hlen]; exact hiN)
        rw [hkn] at hks
        cases hks
      | retired => rw [hcase] at hw0cr; cases hw0cr
      | idle => rw [hcase] at hw0cr; cases hw0cr
      | working a b => rw [hcase] at hw0cr; cases hw0cr
  have hfill := terminal_all_filled hInv hterm hnc hk
  have hresall : st.results.any Option.isNone = false := by
    rw [List.any_eq_false]
    intro r hr
    obtain ⟨j, hj, hj2⟩ := List.mem_iff_getElem.mp hr
    have hjN : j < (specsOf screenshots envs).length := by
      rw [← hInv.len_results]; exact hj
    obtain ⟨v, hv⟩ := hfill j hjN
    rw [List.getD_eq_getElem _ _ hj, hj2] at hv
    rw [hv]
    simp
  have houtcome : batchOutcome st =
      Except.ok (st.results.map (fun r => r.getD ("", ""))) := by
    unfold batchOutcome
    rw [hnc, hresall]
    simp
  refine ⟨st.results.map (fun r => r.getD ("", "")), ?_, ?_, ?_⟩
  · rw [hred]
    exact houtcome
  · rw [List.length_map, hInv.len_results, hlen]
  · intro i hi
    have hiN : i < (specsOf screenshots envs).length := by rw [hlen]; exact hi
    have hir : i < st.results.length := by rw [hInv.len_results]; exact hiN
    obtain ⟨v, hv⟩ := hfill i hiN
    obtain ⟨hk1, hk2, _⟩ := hInv.results_spec i v hv
    have hgd : (st.results.map (fun r => r.getD ("", ""))).getD i ("", "")
        = (st.results.getD i none).getD ("", "") := by
      have him : i < (st.results.map (fun r => r.getD ("", ""))).length := by
        simpa using hir
      rw [List.getD_eq_getElem _ _ him, List.getElem_map,
        List.getD_eq_getElem _ _ hir]
    rw [hgd, hv]
    have hkk := hkeys i hi
    rw [hk1] at hkk
    have hv1 : v.1 = createdKey (envs i) := by
      exact (Option.some.injEq _ _).mp hkk
    calc (some v).getD ("", "") = v := rfl
      _ = (v.1, v.2) := rfl
      _ = (createdKey (envs i), pageFilename i) := by rw [hv1, hk2]

/-- C1 witness: a one-file batch under a complete sequential schedule
resolves with `[("key-a", "page_1.png")]`. -/
theorem C1_batch_order_preserved_witness :
    (uploadScreenshots [smallUrl] (fun _ => goodEnv) 1 [0, 0, 0, 0]).1
      = Except.ok [("key-a", "page_1.png")] := by
  obtain ⟨outs, h1, h2, h3⟩ := C1_batch_order_preserved [smallUrl]
    (fun _ => goodEnv) 1 [0, 0, 0, 0] (by omega) (by decide)
    (fun i _ => ⟨⟨⟨"uid-a", "key-a", 3, 1⟩, rfl⟩, rfl, fun pn => rfl⟩)
    (by decide)
  obtain ⟨a, rfl⟩ := List.length_eq_one.mp h2
  have h0 := h3 0 (by simp)
  have ha : a = (createdKey goodEnv, pageFilename 0) := by simpa using h0
  rw [h1, ha]
  decide

/-- C2: if any file of the batch fails (its uploader throws after its
retries are exhausted), every complete run rejects; and independently the
source's final check (line 292) rejects whenever a slot of the
pre-allocated results array is unfilled when all workers have finished —
`uploadScreenshots` never resolves with a partial result. -/
theorem C2_fail_fast (screenshots : List String) (envs : Nat → FileEnv)
    (k : Nat) (sched : List Nat)
    (hfail : ∃ i, i < screenshots.length ∧
      (fileSpecOf (screenshots.getD i "") (envs i)).key = none)
    (hterm : terminalB (runBatch (specsOf screenshots envs) k sched) = true) :
    (∃ e, (uploadScreenshots screenshots envs k sched).1 = Except.error e) ∧
    ∀ s : BatchState, s.results.any Option.isNone = true →
      ∃ e, batchOutcome s = Except.error e := by
  constructor
  · obtain ⟨i, hiN, hknone⟩ := hfail
    cases hae : (screenshots.map dataUrlToBlob).any Option.isNone with
    | true =>
      refine ⟨BatchError.decodeFailed, ?_⟩
      unfold uploadScreenshots
      rw [hae]
      simp
    | false =>
      have hred : uploadScreenshots screenshots envs k sched =
          (batchOutcome (runBatch (specsOf screenshots envs) k sched),
           (runBatch (specsOf screenshots envs) k sched).emitted) := by
        unfold uploadScreenshots
        rw [hae]
        simp
      rw [hred]
      have hInv := inv_runBatch (specsOf screenshots envs) k sched
      set st := runBatch (specsOf screenshots envs) k sched with hst
      unfold batchOutcome
      cases hc1 : st.workers.any WStatus.isCrashed with
      | true =>
        refine ⟨BatchError.fileFailed, ?_⟩
        simp
      | false =>
        cases hc2 : st.results.any Option.isNone with
        | true =>
          refine ⟨BatchError.missingResults, ?_⟩
          simp
        | false =>
          exfalso
          have hiN2 : i < (specsOf screenshots envs).length := by
            rw [specsOf_length]; exact hiN
          have hir : i < st.results.length := by
            rw [hInv.len_results]; exact hiN2
          have hall2 := List.any_eq_false.mp hc2
          have hsome : (st.results.getD i none).isSome = true := by
            rw [List.getD_eq_getElem _ _ hir]
            have := hall2 _ (List.getElem_mem hir)
            cases hx : st.results[i] with
            | none => rw [hx] at this; simp at this
            | some v => rfl
          obtain ⟨v, hv⟩ := Option.isSome_iff_exists.mp hsome
          obtain ⟨hk1, _, _⟩ := hInv.results_spec i v hv
          rw [specsOf_getD screenshots envs hiN, hknone] at hk1
          cases hk1
  · intro s hnone
    unfold batchOutcome
    cases hc1 : s.workers.any WStatus.isCrashed with
    | true =>
      refine ⟨BatchError.fileFailed, ?_⟩
      simp
    | false =>
      refine ⟨BatchError.missingResults, ?_⟩
      rw [hnone]
      simp

/-- C2 witness: a batch whose single file always fails its PUTs rejects. -/
theorem C2_fail_fast_witness :
    (uploadScreenshots [smallUrl] (fun _ => badEnv) 1 [0, 0]).1
      = Except.error BatchError.fileFailed := by
  obtain ⟨e, he⟩ := (C2_fail_fast [smallUrl] (fun _ => badEnv) 1 [0, 0]
    ⟨0, by simp, by decide⟩ (by decide)).1
  have hval : (uploadScreenshots [smallUrl] (fun _ => badEnv) 1 [0, 0]).1
      = Except.error BatchError.fileFailed := by decide
  exact hval

/-- C8: on the empty input, for every concurrency and schedule, the batch
resolves immediately with `[]`, the worker pool is empty, the state never
changes (no network activity ever starts), and the progress callback is
never invoked (the emitted list is empty). -/
theorem C8_empty_input (envs : Nat → FileEnv) (k : Nat) (sched : List Nat) :
    uploadScreenshots [] envs k sched = (Except.ok [], []) ∧
    runBatch (specsOf [] envs) k sched = initBatch (specsOf [] envs) k ∧
    (initBatch (specsOf [] envs) k).workers = [] := by
  have hspecs : specsOf [] envs = [] := by simp [specsOf]
  have hworkers : (initBatch (specsOf [] envs) k).workers = [] := by
    rw [hspecs]
    show List.replicate (numWorkers k 0) WStatus.idle = []
    have : numWorkers k 0 = 0 := Nat.min_zero k
    rw [this]
    rfl
  have hnostep : ∀ (sched' : List Nat) (s : BatchState), s.workers = [] →
      sched'.foldl (stepWorker (specsOf [] envs)) s = s := by
    intro sched'
    induction sched' with
    | nil => intro s _; rfl
    | cons w rest ih =>
      intro s hs
      have hstep : stepWorker (specsOf [] envs) s w = s := by
        unfold stepWorker
        rw [hs]
        rfl
      simp only [List.foldl_cons, hstep]
      exact ih s hs
  have hrun : runBatch (specsOf [] envs) k sched = initBatch (specsOf [] envs) k :=
    hnostep sched _ hworkers
  refine ⟨?_, hrun, hworkers⟩
  unfold uploadScreenshots
  rw [if_neg (by simp)]
  rw [hrun]
  have : batchOutcome (initBatch (specsOf [] envs) k) = Except.ok [] := by
    unfold batchOutcome
    rw [hworkers, hspecs]
    rfl
  show (batchOutcome (initBatch (specsOf [] envs) k),
    (initBatch (specsOf [] envs) k).emitted) = (Except.ok [], [])
  rw [this]
  rfl

/-- C9: every reachable state of the pool has exactly
`min(concurrency, N)` workers; the number of files in flight (workers in
`working` state, each holding at most one file) is therefore bounded by
`min(concurrency, N)`; the in-flight indices are pairwise distinct; and the
pending queue is always a suffix of the original FIFO index list. -/
theorem C9_worker_pool_bound (specs : List FileSpec) (k : Nat)
    (sched : List Nat) :
    (runBatch specs k sched).workers.length = min k specs.length ∧
    (runBatch specs k sched).workers.countP WStatus.isWorking
      ≤ min k specs.length ∧
    ((runBatch specs k sched).workers.filterMap WStatus.activeIdx).Nodup ∧
    ∃ t, (runBatch specs k sched).queue = (List.range specs.length).drop t := by
  have hInv := inv_runBatch specs k sched
  have hlen : (runBatch specs k sched).workers.length = min k specs.length :=
    hInv.len_workers
  refine ⟨hlen, ?_, ?_, hInv.queue_suffix⟩
  · calc (runBatch specs k sched).workers.countP WStatus.isWorking
        ≤ (runBatch specs k sched).workers.length := List.countP_le_length _
      _ = min k specs.length := hlen
  · apply nodup_filterMap_activeIdx
    intro w w' hne i h1 h2
    exact hInv.active_uniq w w' hne i h1 h2

/-! ### Progress monotonicity and completion invariants -/

theorem getD_mem_prog {l : List Nat} {d : Nat} (hd : d < l.length) :
    l.getD d 0 ∈ l := by
  rw [List.getD_eq_getElem _ _ hd]
  exact List.getElem_mem hd

theorem specsBounded_getD {specs : List FileSpec} (hb : SpecsBounded specs)
    {i : Nat} (hi : i < specs.length) :
    ∀ v ∈ (specs.getD i default).prog, v ≤ (specs.getD i default).size := by
  apply hb
  rw [List.getD_eq_getElem _ _ hi]
  exact List.getElem_mem hi

theorem specsMono_getD {specs : List FileSpec} (hm : SpecsMono specs)
    {i : Nat} (hi : i < specs.length) :
    List.Chain' (· ≤ ·) (specs.getD i default).prog := by
  apply hm
  rw [List.getD_eq_getElem _ _ hi]
  exact List.getElem_mem hi

theorem specsComplete_getD {specs : List FileSpec} (hc : SpecsComplete specs)
    {i : Nat} (hi : i < specs.length) :
    (specs.getD i default).prog ≠ [] ∧
      (specs.getD i default).prog.getLast? = some (specs.getD i default).size := by
  apply hc
  rw [List.getD_eq_getElem _ _ hi]
  exact List.getElem_mem hi

theorem chain'_le_getD {l : List Nat} (h : List.Chain' (· ≤ ·) l) {j : Nat}
    (hj : j + 1 < l.length) : l.getD j 0 ≤ l.getD (j + 1) 0 := by
  have hr := List.chain'_iff_get.mp h j (by omega)
  rw [List.getD_eq_getElem _ _ (by omega), List.getD_eq_getElem _ _ hj]
  simpa using hr

theorem getLast?_getD {l : List Nat} {v : Nat} (h : l.getLast? = some v) :
    l.getD (l.length - 1) 0 = v := by
  rw [List.getLast?_eq_getElem?] at h
  have hne : l ≠ [] := by
    intro hc
    rw [hc] at h
    cases h
  have hlen : l.length - 1 < l.length := by
    have := List.length_pos.mpr hne
    omega
  rw [List.getD_eq_getElem _ _ hlen]
  rw [List.getElem?_eq_getElem hlen] at h
  exact (Option.some.injEq _ _).mp h

theorem state_bytes_le {specs : List FileSpec} {k : Nat} {s : BatchState}
    (hInv : Inv specs k s) (hb : SpecsBounded specs) :
    mapSum s.bytes ≤ totalBytesOf specs := by
  apply mapSum_le_totalBytes specs s.bytes hInv.len_bytes
  intro i hi
  rcases hInv.bytes_shape i hi with hc | ⟨d, hd, hc⟩ | hc
  · rw [hc]; exact Nat.zero_le _
  · rw [hc]
    exact specsBounded_getD hb hi _ (getD_mem_prog hd)
  · rw [hc]; exact Nat.le_refl _

/-- Case analysis of one worker turn, as seen through the byte map and the
emitted progress list: either nothing observable changed, or a part
completed (one byte-map entry written from the file's report list, one
record emitted), or a file finished (its byte-map entry set to its size,
nothing emitted). -/
theorem stepWorker_shape (specs : List FileSpec) (s : BatchState) (w : Nat) :
    ((stepWorker specs s w).bytes = s.bytes ∧
      (stepWorker specs s w).emitted = s.emitted) ∨
    (∃ i d b', s.workers.getD w .retired = WStatus.working i d ∧
      d < (specs.getD i default).prog.length ∧
      b' = s.bytes.set i (some ((specs.getD i default).prog.getD d 0)) ∧
      (stepWorker specs s w).bytes = b' ∧
      (stepWorker specs s w).emitted = s.emitted ++
        [⟨mapSum b', totalBytesOf specs, percentOf (mapSum b') (totalBytesOf specs),
          mapCard b', specs.length⟩]) ∨
    (∃ i d, s.workers.getD w .retired = WStatus.working i d ∧
      ¬ d < (specs.getD i default).prog.length ∧
      (stepWorker specs s w).bytes = s.bytes.set i (some (specs.getD i default).size) ∧
      (stepWorker specs s w).emitted = s.emitted) := by
  cases hst : s.workers.getD w .retired with
  | retired =>
    left
    unfold stepWorker
    rw [hst]
    exact ⟨rfl, rfl⟩
  | crashed i =>
    left
    unfold stepWorker
    rw [hst]
    exact ⟨rfl, rfl⟩
  | idle =>
    left
    unfold stepWorker
    rw [hst]
    cases hq : s.queue with
    | nil => exact ⟨rfl, rfl⟩
    | cons i rest => exact ⟨rfl, rfl⟩
  | working i d =>
    have hred : stepWorker specs s w =
        (if d < (specs.getD i default).prog.length then
          { s with
            bytes := s.bytes.set i (some ((specs.getD i default).prog.getD d 0)),
            emitted := s.emitted ++
              [⟨mapSum (s.bytes.set i (some ((specs.getD i default).prog.getD d 0))),
                totalBytesOf specs,
                percentOf
                  (mapSum (s.bytes.set i (some ((specs.getD i default).prog.getD d 0))))
                  (totalBytesOf specs),
                mapCard (s.bytes.set i (some ((specs.getD i default).prog.getD d 0))),
                specs.length⟩],
            workers := s.workers.set w (WStatus.working i (d + 1)) }
        else
          match (specs.getD i default).key with
          | some kk =>
            { s with
              results := s.results.set i (some (kk, pageFilename i)),
              bytes := s.bytes.set i (some (specs.getD i default).size),
              workers := s.workers.set w WStatus.idle }
          | none => { s with workers := s.workers.set w (WStatus.crashed i) }) := by
      unfold stepWorker
      rw [hst]
    by_cases hd : d < (specs.getD i default).prog.length
    · refine Or.inr (Or.inl ⟨i, d, _, rfl, hd, rfl, ?_, ?_⟩)
      · rw [hred, if_pos hd]
      · rw [hred, if_pos hd]
    · cases hkey : (specs.getD i default).key with
      | some kk =>
        refine Or.inr (Or.inr ⟨i, d, rfl, hd, ?_, ?_⟩)
        · rw [hred, if_neg hd, hkey]
        · rw [hred, if_neg hd, hkey]
      | none =>
        left
        refine ⟨?_, ?_⟩
        · rw [hred, if_neg hd, hkey]
        · rw [hred, if_neg hd, hkey]

theorem mapSum_step_mono {specs : List FileSpec} {k : Nat} {s : BatchState}
    (hInv : Inv specs k s) (hb : SpecsBounded specs) (hm : SpecsMono specs)
    (w : Nat) :
    mapSum s.bytes ≤ mapSum (stepWorker specs s w).bytes := by
  rcases stepWorker_shape specs s w with ⟨hby, _⟩ |
    ⟨i, d, b', hst, hd, hb', hby, _⟩ | ⟨i, d, hst, hd, hby, _⟩
  · rw [hby]
  · have hiN : i < specs.length := hInv.active_lt w i (by rw [hst]; rfl)
    have hib : i < s.bytes.length := by rw [hInv.len_bytes]; exact hiN
    obtain ⟨hdle, hlink⟩ := hInv.worker_link w i d hst
    rw [hby, hb']
    apply mapSum_set_ge s.bytes hib
    cases d with
    | zero =>
      rw [hlink]
      exact Nat.zero_le _
    | succ e =>
      rw [hlink]
      show (specs.getD i default).prog.getD e 0 ≤
        optVal (some ((specs.getD i default).prog.getD (e + 1) 0))
      exact chain'_le_getD (specsMono_getD hm hiN) hd
  · have hiN : i < specs.length := hInv.active_lt w i (by rw [hst]; rfl)
    have hib : i < s.bytes.length := by rw [hInv.len_bytes]; exact hiN
    obtain ⟨hdle, hlink⟩ := hInv.worker_link w i d hst
    rw [hby]
    apply mapSum_set_ge s.bytes hib
    cases d with
    | zero =>
      rw [hlink]
      exact Nat.zero_le _
    | succ e =>
      rw [hlink]
      show (specs.getD i default).prog.getD e 0 ≤
        optVal (some (specs.getD i default).size)
      exact specsBounded_getD hb hiN _ (getD_mem_prog (by omega))

theorem monoInv_step {specs : List FileSpec} {k : Nat} {s : BatchState}
    (hInv : Inv specs k s) (hb : SpecsBounded specs) (hm : SpecsMono specs)
    (w : Nat) (hmono : MonoInv s) : MonoInv (stepWorker specs s w) := by
  have hsum := mapSum_step_mono hInv hb hm w
  rcases stepWorker_shape specs s w with ⟨hby, hem⟩ |
    ⟨i, d, b', hst, hd, hb', hby, hem⟩ | ⟨i, d, hst, hd, hby, hem⟩
  · constructor
    · rw [hem]; exact hmono.1
    · intro e he
      rw [hem] at he
      rw [hby]
      exact hmono.2 e he
  · constructor
    · rw [hem, List.map_append]
      rw [List.chain'_append]
      refine ⟨hmono.1, List.chain'_singleton _, ?_⟩
      intro x hx y hy
      have hy2 : mapSum b' = y := by simpa using hy
      rw [List.getLast?_map] at hx
      cases hlast : s.emitted.getLast? with
      | none => rw [hlast] at hx; cases hx
      | some e1 =>
        rw [hlast] at hx
        have hx2 : e1.uploadedBytes = x := by simpa using hx
        rw [← hx2, ← hy2]
        calc e1.uploadedBytes ≤ mapSum s.bytes := hmono.2 e1 hlast
          _ ≤ mapSum (stepWorker specs s w).bytes := hsum
          _ = mapSum b' := by rw [hby]
    · intro e he
      rw [hem] at he
      rw [List.getLast?_concat] at he
      obtain rfl : (⟨mapSum b', totalBytesOf specs,
          percentOf (mapSum b') (totalBytesOf specs), mapCard b',
          specs.length⟩ : UploadProgress) = e := by simpa using he
      rw [hby]
  · constructor
    · rw [hem]; exact hmono.1
    · intro e he
      rw [hem] at he
      calc e.uploadedBytes ≤ mapSum s.bytes := hmono.2 e he
        _ ≤ mapSum (stepWorker specs s w).bytes := hsum

theorem completeInv_step {specs : List FileSpec} {k : Nat} {s : BatchState}
    (hInv : Inv specs k s) (hcmp : SpecsComplete specs) (w : Nat)
    (hc : CompleteInv s) : CompleteInv (stepWorker specs s w) := by
  rcases stepWorker_shape specs s w with ⟨hby, hem⟩ |
    ⟨i, d, b', hst, hd, hb', hby, hem⟩ | ⟨i, d, hst, hd, hby, hem⟩
  · constructor
    · intro e he
      rw [hem] at he
      rw [hby]
      exact hc.1 e he
    · intro hcard
      rw [hby] at hcard
      rw [hem]
      exact hc.2 hcard
  · constructor
    · intro e he
      rw [hem, List.getLast?_concat] at he
      obtain rfl : (⟨mapSum b', totalBytesOf specs,
          percentOf (mapSum b') (totalBytesOf specs), mapCard b',
          specs.length⟩ : UploadProgress) = e := by simpa using he
      rw [hby]
      exact ⟨rfl, rfl⟩
    · intro _
      rw [hem]
      simp
  · -- a finish step rewrites the entry with the value it already holds
    have hiN : i < specs.length := hInv.active_lt w i (by rw [hst]; rfl)
    have hib : i < s.bytes.length := by rw [hInv.len_bytes]; exact hiN
    obtain ⟨hdle, hlink⟩ := hInv.worker_link w i d hst
    obtain ⟨hpne, hplast⟩ := specsComplete_getD hcmp hiN
    have hlen1 : 0 < (specs.getD i default).prog.length :=
      List.length_pos.mpr hpne
    have hdlen : d = (specs.getD i default).prog.length := by omega
    have hold : s.bytes.getD i none = some (specs.getD i default).size := by
      cases hdd : d with
      | zero => omega
      | succ e =>
        rw [hdd] at hlink
        have hlink2 : s.bytes.getD i none =
            some ((specs.getD i default).prog.getD e 0) := hlink
        rw [hlink2]
        have he2 : e = (specs.getD i default).prog.length - 1 := by omega
        rw [he2, getLast?_getD hplast]
    have hsum : mapSum (stepWorker specs s w).bytes = mapSum s.bytes := by
      rw [hby]
      have := mapSum_set s.bytes i hib (some (specs.getD i default).size)
      rw [hold] at this
      simp only [optVal] at this
      omega
    have hcard : mapCard (stepWorker specs s w).bytes = mapCard s.bytes := by
      rw [hby]
      have := mapCard_set s.bytes i hib (specs.getD i default).size
      rw [hold] at this
      simp only [Option.isSome_some, if_true] at this
      omega
    constructor
    · intro e he
      rw [hem] at he
      rw [hsum, hcard]
      exact hc.1 e he
    · intro hcard2
      rw [hcard] at hcard2
      rw [hem]
      exact hc.2 hcard2

theorem emitBound_step {specs : List FileSpec} {k : Nat} {s : BatchState}
    (hInv : Inv specs k s) (hb : SpecsBounded specs) (w : Nat)
    (hprev : ∀ e ∈ s.emitted, e.uploadedBytes ≤ totalBytesOf specs) :
    ∀ e ∈ (stepWorker specs s w).emitted,
      e.uploadedBytes ≤ totalBytesOf specs := by
  have hpost := inv_step specs k s hInv w
  rcases stepWorker_shape specs s w with ⟨hby, hem⟩ |
    ⟨i, d, b', hst, hd, hb', hby, hem⟩ | ⟨i, d, hst, hd, hby, hem⟩
  · intro e he
    rw [hem] at he
    exact hprev e he
  · intro e he
    rw [hem] at he
    rcases List.mem_append.mp he with hold | hnew
    · exact hprev e hold
    · obtain rfl : e = ⟨mapSum b', totalBytesOf specs,
          percentOf (mapSum b') (totalBytesOf specs), mapCard b',
          specs.length⟩ := by simpa using hnew
      show mapSum b' ≤ totalBytesOf specs
      rw [← hby]
      exact state_bytes_le hpost hb
  · intro e he
    rw [hem] at he
    exact hprev e he

theorem batch_invs_run (specs : List FileSpec) (k : Nat)
    (hb : SpecsBounded specs) (hm : SpecsMono specs) :
    ∀ (sched : List Nat) (s : BatchState),
      Inv specs k s → MonoInv s →
      (∀ e ∈ s.emitted, e.uploadedBytes ≤ totalBytesOf specs) →
      MonoInv (sched.foldl (stepWorker specs) s) ∧
      (∀ e ∈ (sched.foldl (stepWorker specs) s).emitted,
        e.uploadedBytes ≤ totalBytesOf specs) := by
  intro sched
  induction sched with
  | nil => intro s h1 h2 h3; exact ⟨h2, h3⟩
  | cons w rest ih =>
    intro s h1 h2 h3
    exact ih _ (inv_step specs k s h1 w) (monoInv_step h1 hb hm w h2)
      (emitBound_step h1 hb w h3)

theorem completeInv_run (specs : List FileSpec) (k : Nat)
    (hcmp : SpecsComplete specs) :
    ∀ (sched : List Nat) (s : BatchState),
      Inv specs k s → CompleteInv s →
      CompleteInv (sched.foldl (stepWorker specs) s) := by
  intro sched
  induction sched with
  | nil => intro s _ h2; exact h2
  | cons w rest ih =>
    intro s h1 h2
    exact ih _ (inv_step specs k s h1 w) (completeInv_step h1 hcmp w h2)

theorem monoInv_init (specs : List FileSpec) (k : Nat) :
    MonoInv (initBatch specs k) := by
  constructor
  · show List.Chain' (· ≤ ·) (([] : List UploadProgress).map _)
    exact List.chain'_nil
  · intro e he
    cases he

theorem completeInv_init (specs : List FileSpec) (k : Nat) :
    CompleteInv (initBatch specs k) := by
  constructor
  · intro e he
    cases he
  · intro hcard
    exfalso
    have hz : mapCard (initBatch specs k).bytes = 0 := by
      show mapCard (List.replicate specs.length none) = 0
      induction specs.length with
      | zero => rfl
      | succ n ih =>
        rw [List.replicate_succ, mapCard_cons, ih]
        simp
    omega

theorem emitBound_init (specs : List FileSpec) (k : Nat) :
    ∀ e ∈ (initBatch specs k).emitted,
      e.uploadedBytes ≤ totalBytesOf specs := by
  intro e he
  cases he

theorem le_sum_of_mem {l : List Nat} {a : Nat} (h : a ∈ l) : a ≤ l.sum :=
  List.single_le_sum (fun _ _ => Nat.zero_le _) a h

theorem runBatch_no_crash (screenshots : List String) (envs : Nat → FileEnv)
    (k : Nat) (sched : List Nat)
    (hdec : ∀ u ∈ screenshots, (dataUrlToBlob u).isSome = true)
    (hsucc : ∀ i, i < screenshots.length → envSucceeds (envs i)) :
    (runBatch (specsOf screenshots envs) k sched).workers.any
      WStatus.isCrashed = false := by
  have hInv := inv_runBatch (specsOf screenshots envs) k sched
  have hlen := specsOf_length screenshots envs
  set st := runBatch (specsOf screenshots envs) k sched with hstdef
  cases hany : st.workers.any WStatus.isCrashed with
  | false => rfl
  | true =>
    exfalso
    obtain ⟨w0, hw0mem, hw0cr⟩ := List.any_eq_true.mp hany
    obtain ⟨j, hj, hj2⟩ := List.mem_iff_getElem.mp hw0mem
    cases hcase : w0 with
    | crashed i =>
      have hgd : st.workers.getD j .retired = WStatus.crashed i := by
        rw [List.getD_eq_getElem _ _ hj, hj2, hcase]
      have hiN : i < (specsOf screenshots envs).length :=
        hInv.active_lt j i (by rw [hgd]; rfl)
      have hkn := hInv.crashed_spec j i hgd
      have hiN2 : i < screenshots.length := by rw [← hlen]; exact hiN
      have hks : ((specsOf screenshots envs).getD i default).key
          = some (createdKey (envs i)) := by
        rw [specsOf_getD screenshots envs hiN2]
        apply envSucceeds_key
        · apply hdec
          rw [List.getD_eq_getElem _ _ hiN2]
          exact List.getElem_mem hiN2
        · exact hsucc i hiN2
      rw [hkn] at hks
      cases hks
    | retired => rw [hcase] at hw0cr; cases hw0cr
    | idle => rw [hcase] at hw0cr; cases hw0cr
    | working a b => rw [hcase] at hw0cr; cases hw0cr

theorem chain'_percent_of_uploaded {emitted : List UploadProgress} {tot : Nat}
    (hch : List.Chain' (· ≤ ·) (emitted.map UploadProgress.uploadedBytes))
    (hsh : ∀ e ∈ emitted, e.percent = percentOf e.uploadedBytes tot) :
    List.Chain' (· ≤ ·) (emitted.map UploadProgress.percent) := by
  rw [List.chain'_map] at hch ⊢
  rw [List.chain'_iff_get] at hch ⊢
  intro i hi
  have h1 := hch i hi
  have hm1 : emitted.get ⟨i, by omega⟩ ∈ emitted := emitted.get_mem i _
  have hm2 : emitted.get ⟨i + 1, by omega⟩ ∈ emitted := emitted.get_mem (i + 1) _
  rw [hsh _ hm1, hsh _ hm2]
  exact percentOf_mono tot h1

/-! ### Claim theorems: progress reporting (C10 and C4) -/

/-- C10: on every batch whose total decoded byte size is positive, every
progress record `uploadScreenshots` emits — under any environment, any
concurrency and any schedule — satisfies `uploadedBytes ≤ totalBytes` and
`percent ≤ 100`: each file's tracked count is one of the values
`min(p · partSize, size)` (or `size` on completion), so the aggregate never
exceeds the pre-computed total. -/
theorem C10_progress_bounds (screenshots : List String) (envs : Nat → FileEnv)
    (k : Nat) (sched : List Nat)
    (htot : 0 < totalBytesOf (specsOf screenshots envs)) :
    ∀ e ∈ (uploadScreenshots screenshots envs k sched).2,
      e.uploadedBytes ≤ e.totalBytes ∧ e.percent ≤ 100 := by
  intro e he
  cases hae : (screenshots.map dataUrlToBlob).any Option.isNone with
  | true =>
    exfalso
    unfold uploadScreenshots at he
    rw [hae] at he
    simp at he
  | false =>
    have hsnd : (uploadScreenshots screenshots envs k sched).2 =
        (runBatch (specsOf screenshots envs) k sched).emitted := by
      unfold uploadScreenshots
      rw [hae]
      simp
    rw [hsnd] at he
    have hInv := inv_runBatch (specsOf screenshots envs) k sched
    have hbound : e.uploadedBytes ≤ totalBytesOf (specsOf screenshots envs) := by
      have hrun := batch_invs_run (specsOf screenshots envs) k
        (specsOf_bounded screenshots envs) (specsOf_mono screenshots envs)
        sched (initBatch (specsOf screenshots envs) k)
        (inv_init _ k) (monoInv_init _ k) (emitBound_init _ k)
      exact hrun.2 e he
    obtain ⟨h1, _, h3⟩ := hInv.emit_shape e he
    constructor
    · rw [h1]; exact hbound
    · rw [h3]; exact percentOf_le_100 htot hbound

/-- C10 witness: the theorem applied to the concrete one-file batch, at its
single emitted progress record. -/
theorem C10_progress_bounds_witness :
    0 < totalBytesOf (specsOf [smallUrl] (fun _ => goodEnv)) ∧
    (UploadProgress.mk 3 3 100 1 1).uploadedBytes
        ≤ (UploadProgress.mk 3 3 100 1 1).totalBytes ∧
    (UploadProgress.mk 3 3 100 1 1).percent ≤ 100 :=
  ⟨by decide,
    C10_progress_bounds [smallUrl] (fun _ => goodEnv) 1 [0, 0, 0, 0]
      (by decide) ⟨3, 3, 100, 1, 1⟩ (by decide)⟩

/-- C4, counterexample to the claim as stated: a fully-successful
two-file batch (3-byte file then 0-byte file, both with valid chunking
plans: `totalParts = ceil(size/partSize)`), run to completion by a
sequential scheduler, whose final (only) progress invocation has
`currentFile = 1` while `totalFiles = 2` — a 0-byte file has no parts, so
it never triggers a progress callback and is missing from
`bytesPerScreenshot` at the time of the last report. -/
theorem C4_counterexample :
    ((uploadScreenshots cxUrls cxEnvs 1 cxSched).1 =
      Except.ok [("key-a", "page_1.png"), ("key-b", "page_2.png")]) ∧
    terminalB (runBatch (specsOf cxUrls cxEnvs) 1 cxSched) = true ∧
    (fileSpecOf (cxUrls.getD 0 "") (cxEnvs 0)).key = some "key-a" ∧
    (fileSpecOf (cxUrls.getD 1 "") (cxEnvs 1)).key = some "key-b" ∧
    sessionValid ⟨"uid-a", "key-a", 3, 1⟩ (decodedSize (cxUrls.getD 0 "")) ∧
    sessionValid ⟨"uid-b", "key-b", 5, 0⟩ (decodedSize (cxUrls.getD 1 "")) ∧
    cxUrls.length = 2 ∧
    ((uploadScreenshots cxUrls cxEnvs 1 cxSched).2.getLast?.map
      UploadProgress.currentFile = some 1) := by
  refine ⟨by decide, by decide, by decide, by decide, ?_, ?_, by decide, by decide⟩
  · constructor
    · decide
    · decide
  · constructor
    · decide
    · decide

/-- C4 (amended): provided additionally that every input's decoded size is
positive (equivalently, every valid session plan has at least one part),
every fully-successful complete run emits progress records with
monotonically non-decreasing `percent`, and its final record is exactly
`{uploadedBytes = totalBytes, totalBytes, percent = 100,
currentFile = totalFiles, totalFiles}`; moreover each file's reported bytes
after part `p` equal `min(p * partSize, size)`.  Without the positivity
hypothesis the final-record clause fails (see the counterexample): a 0-byte
file never reports progress, so `currentFile` can fall short of
`totalFiles` on the final invocation. -/
theorem C4_progress_monotone_final (screenshots : List String)
    (envs : Nat → FileEnv) (k : Nat) (sched : List Nat)
    (hk : 1 ≤ k) (hne : screenshots ≠ [])
    (hdec : ∀ u ∈ screenshots, (dataUrlToBlob u).isSome = true)
    (hsucc : ∀ i, i < screenshots.length → envSucceeds (envs i))
    (hsess : ∀ i, i < screenshots.length → ∃ sess,
      (envs i).create = Except.ok sess ∧
        sessionValid sess (decodedSize (screenshots.getD i "")))
    (hpos : ∀ i, i < screenshots.length →
      0 < decodedSize (screenshots.getD i ""))
    (hterm : terminalB (runBatch (specsOf screenshots envs) k sched) = true) :
    List.Chain' (· ≤ ·)
      (((uploadScreenshots screenshots envs k sched).2).map
        UploadProgress.percent) ∧
    ((uploadScreenshots screenshots envs k sched).2).getLast? =
      some ⟨totalBytesOf (specsOf screenshots envs),
        totalBytesOf (specsOf screenshots envs), 100,
        screenshots.length, screenshots.length⟩ ∧
    (∀ i, i < screenshots.length → ∃ sess,
      (envs i).create = Except.ok sess ∧
      (uploadScreenshot (screenshots.getD i "") (envs i)).progress =
        (List.range' 1 sess.totalParts).map
          (fun p => (min (p * sess.partSize)
              (decodedSize (screenshots.getD i "")),
            decodedSize (screenshots.getD i "")))) := by
  have hred := uploadScreenshots_reduce screenshots envs k sched hdec
  have hlen := specsOf_length screenshots envs
  have hInv := inv_runBatch (specsOf screenshots envs) k sched
  have hN : 0 < screenshots.length := List.length_pos.mpr hne
  set st := runBatch (specsOf screenshots envs) k sched with hstdef
  have hsnd : (uploadScreenshots screenshots envs k sched).2 = st.emitted := by
    rw [hred]
  -- total bytes are positive
  have hsize0 : ((specsOf screenshots envs).getD 0 default).size
      = decodedSize (screenshots.getD 0 "") := by
    rw [specsOf_getD screenshots envs hN]
    rfl
  have htot : 0 < totalBytesOf (specsOf screenshots envs) := by
    have h0N : 0 < (specsOf screenshots envs).length := by rw [hlen]; exact hN
    have hmem : ((specsOf screenshots envs).getD 0 default).size ∈
        (specsOf screenshots envs).map FileSpec.size := by
      apply List.mem_map.mpr
      refine ⟨(specsOf screenshots envs).getD 0 default, ?_, rfl⟩
      rw [List.getD_eq_getElem _ _ h0N]
      exact List.getElem_mem h0N
    have hle := le_sum_of_mem hmem
    have hpos0 := hpos 0 hN
    rw [hsize0] at hle
    unfold totalBytesOf
    omega
  -- run the invariants
  have hMB := batch_invs_run (specsOf screenshots envs) k
    (specsOf_bounded screenshots envs) (specsOf_mono screenshots envs)
    sched (initBatch (specsOf screenshots envs) k)
    (inv_init _ k) (monoInv_init _ k) (emitBound_init _ k)
  have hCmp := completeInv_run (specsOf screenshots envs) k
    (specsOf_complete screenshots envs hdec hsucc hsess hpos)
    sched (initBatch (specsOf screenshots envs) k)
    (inv_init _ k) (completeInv_init _ k)
  -- terminal, fully-successful: every slot filled, bytes map full
  have hnc := runBatch_no_crash screenshots envs k sched hdec hsucc
  have hfill := terminal_all_filled hInv hterm hnc hk
  have hbytesfull : ∀ i, i < (specsOf screenshots envs).length →
      st.bytes.getD i none = some ((specsOf screenshots envs).getD i default).size := by
    intro i hi
    obtain ⟨v, hv⟩ := hfill i hi
    exact (hInv.results_spec i v hv).2.2
  have hsum : mapSum st.bytes = totalBytesOf (specsOf screenshots envs) :=
    mapSum_eq_totalBytes _ _ hInv.len_bytes hbytesfull
  have hcard : mapCard st.bytes = screenshots.length := by
    have hall : ∀ b ∈ st.bytes, b.isSome = true := by
      intro b hb
      obtain ⟨j, hj, hj2⟩ := List.mem_iff_getElem.mp hb
      have hjN : j < (specsOf screenshots envs).length := by
        rw [← hInv.len_bytes]; exact hj
      have := hbytesfull j hjN
      rw [List.getD_eq_getElem _ _ hj, hj2] at this
      rw [← hj2] at *
      rw [this]
      rfl
    rw [mapCard_eq_length st.bytes hall, hInv.len_bytes, hlen]
  have hcardpos : 0 < mapCard st.bytes := by rw [hcard]; exact hN
  have hnonempty : st.emitted ≠ [] := hCmp.2 hcardpos
  obtain ⟨efin, hefin⟩ : ∃ e, st.emitted.getLast? = some e :=
    ⟨st.emitted.getLast hnonempty, List.getLast?_eq_getLast _ hnonempty⟩
  have hefinmem : efin ∈ st.emitted := by
    have := List.getLast?_eq_getElem? st.emitted
    rw [hefin] at this
    have hlenpos : 0 < st.emitted.length := List.length_pos.mpr hnonempty
    rw [List.getElem?_eq_getElem (by omega)] at this
    have heq : st.emitted[st.emitted.length - 1] = efin :=
      (Option.some.injEq _ _).mp this.symm
    rw [← heq]
    exact List.getElem_mem _
  have hfin1 : efin.uploadedBytes = mapSum st.bytes := (hCmp.1 efin hefin).1
  have hfin2 : efin.currentFile = mapCard st.bytes := (hCmp.1 efin hefin).2
  obtain ⟨hsh1, hsh2, hsh3⟩ := hInv.emit_shape efin hefinmem
  refine ⟨?_, ?_, ?_⟩
  · rw [hsnd]
    apply chain'_percent_of_uploaded hMB.1.1
    intro e he
    exact (hInv.emit_shape e he).2.2
  · rw [hsnd, hefin]
    have h1 : efin.uploadedBytes = totalBytesOf (specsOf screenshots envs) := by
      rw [hfin1, hsum]
    have h3 : efin.percent = 100 := by
      rw [hsh3, h1, percentOf_self htot]
    have h4 : efin.currentFile = screenshots.length := by
      rw [hfin2, hcard]
    have h5 : efin.totalFiles = screenshots.length := by
      rw [hsh2, hlen]
    have hefineq : efin = ⟨totalBytesOf (specsOf screenshots envs),
        totalBytesOf (specsOf screenshots envs), 100,
        screenshots.length, screenshots.length⟩ := by
      calc efin = ⟨efin.uploadedBytes, efin.totalBytes, efin.percent,
          efin.currentFile, efin.totalFiles⟩ := rfl
        _ = ⟨totalBytesOf (specsOf screenshots envs),
            totalBytesOf (specsOf screenshots envs), 100,
            screenshots.length, screenshots.length⟩ := by
          rw [h1, hsh1, h3, h4, h5]
    rw [hefineq]
  · intro i hi
    obtain ⟨⟨sess0, hcr0⟩, hco, hp⟩ := hsucc i hi
    obtain ⟨sess, hcr, hval⟩ := hsess i hi
    refine ⟨sess, hcr, ?_⟩
    have hdecu : (dataUrlToBlob (screenshots.getD i "")).isSome = true := by
      apply hdec
      rw [List.getD_eq_getElem _ _ hi]
      exact List.getElem_mem hi
    exact (uploadScreenshot_success _ (envs i) sess hdecu hcr hco hp).2

/-- C4 witness: the amended theorem applied to the concrete one-file batch;
the single progress record is final with `percent = 100` and
`currentFile = totalFiles = 1`. -/
theorem C4_progress_monotone_final_witness :
    (uploadScreenshots [smallUrl] (fun _ => goodEnv) 1 [0, 0, 0, 0]).2.getLast?
      = some ⟨3, 3, 100, 1, 1⟩ := by
  obtain ⟨hchain, hlast, hper⟩ := C4_progress_monotone_final [smallUrl]
    (fun _ => goodEnv) 1 [0, 0, 0, 0] (by omega) (by decide) (by decide)
    (fun i _ => ⟨⟨⟨"uid-a", "key-a", 3, 1⟩, rfl⟩, rfl, fun pn => rfl⟩)
    (fun i hi => by
      have h0 : i = 0 := by simpa using hi
      subst h0
      exact ⟨⟨"uid-a", "key-a", 3, 1⟩, rfl, by decide, by decide⟩)
    (fun i hi => by
      have h0 : i = 0 := by simpa using hi
      rw [h0]
      decide)
    (by decide)
  rw [hlast]
  decide

end Flow
